import Mathlib

/-!
# Verification of the scheme-ts recursive-descent parser (`src/parser.ts`)

A shallow embedding of the parser in `src/parser.ts` of `kyleect/scheme-ts`.
The parser consumes a flat list of tokens with a single mutable cursor
(`this.current`); we embed it as pure functions threading the cursor
explicitly, with a thrown `SyntaxError` modelled as an `Except` error value.
Out-of-bounds token-array accesses (which in the TypeScript source would
surface as a `TypeError` from calling a method on `undefined`, not as a
`SyntaxError`) are modelled by the distinguished error `ParseError.oob`.
The mutually recursive parsing methods are embedded with an explicit fuel
argument; running out of fuel yields the distinguished error
`ParseError.fuelOut`, which is not a behaviour of the source: we prove that
for end-of-input-terminated token streams the fuel supplied by `parse`
never runs out.
-/

/-- Modelled from the spec: the token type tag. The token model
(`src/token.ts`) is an external collaborator not included in the sources;
the spec fixes the closed set of type tags: left-bracket, right-bracket,
symbol, number, string, boolean, end-of-input. -/
inductive TokenType where
  | leftBracket
  | rightBracket
  | symbol
  | number
  | string
  | boolean
  | eof
deriving DecidableEq, Repr

/-- Modelled from the spec: the decoded literal payload a number, string or
boolean token carries. -/
inductive Lit where
  | num (n : Int)
  | str (s : String)
  | bool (b : Bool)
deriving DecidableEq, Repr

/-- Modelled from the spec: a token exposes a type tag, a lexeme and, for
literal tokens, a decoded literal value. -/
structure Token where
  type : TokenType
  lexeme : String
  literal : Option Lit
deriving DecidableEq, Repr

/-- The values a `LiteralExpr` can carry: a decoded literal payload, the
distinguished `Parser.NULL_VALUE` empty-list sentinel (an empty array in
the source), or JavaScript `undefined` (what `getLiteral()` returns on a
token that carries no literal payload). -/
inductive Value where
  | lit (l : Lit)
  | nullList
  | jsUndefined
deriving DecidableEq, Repr

/-- Modelled from the spec: `Token.getLiteral()` returns the decoded
literal value of a literal token (`undefined` when absent). -/
def Token.getLiteral (t : Token) : Value :=
  match t.literal with
  | some l => .lit l
  | none => .jsUndefined

/-- The AST: the closed set of expression variants of `src/parser.ts`
(`LiteralExpr`, `SymbolExpr`, `CallExpr`, `IfExpr`, `DefineExpr`,
`SetExpr`, `LetExpr`, `LambdaExpr`). A `LetBindingNode` is the pair of its
`name` token and `value` expression. The `IfExpr` alternative is optional
(`undefined` in the source when the else-branch is omitted). -/
inductive Expr where
  | literal (value : Value)
  | sym (token : Token)
  | call (callee : Expr) (args : List Expr)
  | ifE (test : Expr) (consequent : Expr) (alternative : Option Expr)
  | define (name : Token) (value : Expr)
  | setE (name : Token) (value : Expr)
  | letE (bindings : List (Token × Expr)) (body : List Expr)
  | lambda (params : List Token) (body : List Expr)
deriving Repr

/-- Parser failures. `unexpectedConsume p e` is the `SyntaxError` thrown by
`Parser.consume` (message built from the previous token's type `p` and the
expected type `e`); `unexpectedAtom t` is the `SyntaxError` thrown by
`Parser.atom` (message built from the current token's type `t`); `oob`
models an out-of-bounds token access (a `TypeError` crash in the source,
not a `SyntaxError`); `fuelOut` is fuel exhaustion of the embedding, not a
behaviour of the source. -/
inductive ParseError where
  | unexpectedConsume (prevType : TokenType) (expected : TokenType)
  | unexpectedAtom (currType : TokenType)
  | oob
  | fuelOut
deriving DecidableEq, Repr

/-- The errors the source actually throws: the two `SyntaxError` shapes. -/
def ParseError.isSyntaxE : ParseError → Prop
  | .unexpectedConsume _ _ => True
  | .unexpectedAtom _ => True
  | .oob => False
  | .fuelOut => False

instance : DecidablePred ParseError.isSyntaxE := by
  intro e
  cases e <;> simp [ParseError.isSyntaxE] <;> infer_instance

namespace Parser

/-- `Parser.NULL_VALUE`: the distinguished empty-list sentinel (a fixed
empty array in the source). -/
def NULL_VALUE : Value := .nullList

/-- `this.peek()`: `this.tokens[this.current]`; out of bounds in the source
this yields `undefined` and the immediate `.getTokenType()` call crashes,
modelled as `oob`. -/
def peek (tokens : List Token) (c : Nat) : Except ParseError Token :=
  match tokens[c]? with
  | some t => .ok t
  | none => .error .oob

/-- `this.previous()`: `this.tokens[this.current - 1]`; out of bounds
(including `current = 0`) the source crashes on the subsequent method
call, modelled as `oob`. -/
def previous (tokens : List Token) (c : Nat) : Except ParseError Token :=
  if c = 0 then .error .oob
  else
    match tokens[c - 1]? with
    | some t => .ok t
    | none => .error .oob

/-- `this.check(tokenType)`: peek and compare the type tag. -/
def check (tokens : List Token) (tt : TokenType) (c : Nat) :
    Except ParseError Bool :=
  match peek tokens c with
  | .error e => .error e
  | .ok t => .ok (t.type = tt)

/-- `this.match(tokenType)`: consume the current token if its type
matches, reporting whether it did (`match` is a reserved word in Lean). -/
def mtch (tokens : List Token) (tt : TokenType) (c : Nat) :
    Except ParseError (Bool × Nat) :=
  match check tokens tt c with
  | .error e => .error e
  | .ok true => .ok (true, c + 1)
  | .ok false => .ok (false, c)

/-- `this.consume(tokenType)`: advance past the current token if its type
matches, otherwise throw a `SyntaxError` built from the *previous* token's
type and the expected type. -/
def consume (tokens : List Token) (tt : TokenType) (c : Nat) :
    Except ParseError (Token × Nat) :=
  match peek tokens c with
  | .error e => .error e
  | .ok t =>
    if t.type = tt then .ok (t, c + 1)
    else
      match previous tokens c with
      | .error e => .error e
      | .ok p => .error (.unexpectedConsume p.type tt)

/-- `this.atom()`: the `switch (true)` ladder — try `match` on symbol,
number, string, boolean in that order (the three literal cases fall
through to one body building `Literal(previous().getLiteral())`); on a
symbol build `Symbol(previous())`; otherwise throw a `SyntaxError` built
from the current token's type. -/
def atom (tokens : List Token) (c : Nat) : Except ParseError (Expr × Nat) :=
  match mtch tokens .symbol c with
  | .error e => .error e
  | .ok (true, c1) =>
    match previous tokens c1 with
    | .error e => .error e
    | .ok t => .ok (.sym t, c1)
  | .ok (false, _) =>
    match mtch tokens .number c with
    | .error e => .error e
    | .ok (true, c1) =>
      match previous tokens c1 with
      | .error e => .error e
      | .ok t => .ok (.literal t.getLiteral, c1)
    | .ok (false, _) =>
      match mtch tokens .string c with
      | .error e => .error e
      | .ok (true, c1) =>
        match previous tokens c1 with
        | .error e => .error e
        | .ok t => .ok (.literal t.getLiteral, c1)
      | .ok (false, _) =>
        match mtch tokens .boolean c with
        | .error e => .error e
        | .ok (true, c1) =>
          match previous tokens c1 with
          | .error e => .error e
          | .ok t => .ok (.literal t.getLiteral, c1)
        | .ok (false, _) =>
          match peek tokens c with
          | .error e => .error e
          | .ok t => .error (.unexpectedAtom t.type)

mutual

/-- `this.expression()`: on `(` either the empty-list literal (immediate
`)`), a special form dispatched on the peeked lexeme (`if`, `define`,
`set!`, `let`, `lambda`), or a generic call; otherwise an atom. -/
def expression (tokens : List Token) : Nat → Nat →
    Except ParseError (Expr × Nat)
  | 0, _ => .error .fuelOut
  | f + 1, c =>
    match mtch tokens .leftBracket c with
    | .error e => .error e
    | .ok (true, c1) =>
      match mtch tokens .rightBracket c1 with
      | .error e => .error e
      | .ok (true, c2) => .ok (.literal NULL_VALUE, c2)
      | .ok (false, _) =>
        match peek tokens c1 with
        | .error e => .error e
        | .ok t =>
          if t.lexeme = "if" then ifRule tokens f c1
          else if t.lexeme = "define" then defineRule tokens f c1
          else if t.lexeme = "set!" then setRule tokens f c1
          else if t.lexeme = "let" then letRule tokens f c1
          else if t.lexeme = "lambda" then lambdaRule tokens f c1
          else call tokens f c1
    | .ok (false, _) => atom tokens c
termination_by structural f _ => f

/-- `this.call()`: parse the callee as a full expression, then arguments
until the closing `)`. -/
def call (tokens : List Token) : Nat → Nat →
    Except ParseError (Expr × Nat)
  | 0, _ => .error .fuelOut
  | f + 1, c =>
    match expression tokens f c with
    | .error e => .error e
    | .ok (callee, c1) =>
      match exprsUntilRB tokens f c1 with
      | .error e => .error e
      | .ok (args, c2) => .ok (.call callee args, c2)
termination_by structural f _ => f

/-- The loop `while (!this.match(RightBracket)) xs.push(this.expression())`
shared verbatim by `call` (arguments), `let` (body) and `lambda` (body). -/
def exprsUntilRB (tokens : List Token) : Nat → Nat →
    Except ParseError (List Expr × Nat)
  | 0, _ => .error .fuelOut
  | f + 1, c =>
    match mtch tokens .rightBracket c with
    | .error e => .error e
    | .ok (true, c1) => .ok ([], c1)
    | .ok (false, _) =>
      match expression tokens f c with
      | .error e => .error e
      | .ok (x, c1) =>
        match exprsUntilRB tokens f c1 with
        | .error e => .error e
        | .ok (xs, c2) => .ok (x :: xs, c2)
termination_by structural f _ => f

/-- `this.if()`: advance past the `if` token (the returned token is
discarded, so no bounds check happens there in the source), parse test and
consequent, parse an alternative only when the next token fails to `match`
a `)` — note that a successful `match` here already consumes the `)` — and
then unconditionally `consume` a further `)`. -/
def ifRule (tokens : List Token) : Nat → Nat →
    Except ParseError (Expr × Nat)
  | 0, _ => .error .fuelOut
  | f + 1, c =>
    match expression tokens f (c + 1) with
    | .error e => .error e
    | .ok (test, c2) =>
      match expression tokens f c2 with
      | .error e => .error e
      | .ok (conseq, c3) =>
        match mtch tokens .rightBracket c3 with
        | .error e => .error e
        | .ok (true, c4) =>
          match consume tokens .rightBracket c4 with
          | .error e => .error e
          | .ok (_, c5) => .ok (.ifE test conseq none, c5)
        | .ok (false, _) =>
          match expression tokens f c3 with
          | .error e => .error e
          | .ok (alt, c4) =>
            match consume tokens .rightBracket c4 with
            | .error e => .error e
            | .ok (_, c5) => .ok (.ifE test conseq (some alt), c5)
termination_by structural f _ => f

/-- `this.define()`: advance past the `define` token, `consume` a symbol
name, parse the value expression, `consume` the closing `)`. -/
def defineRule (tokens : List Token) : Nat → Nat →
    Except ParseError (Expr × Nat)
  | 0, _ => .error .fuelOut
  | f + 1, c =>
    match consume tokens .symbol (c + 1) with
    | .error e => .error e
    | .ok (name, c2) =>
      match expression tokens f c2 with
      | .error e => .error e
      | .ok (v, c3) =>
        match consume tokens .rightBracket c3 with
        | .error e => .error e
        | .ok (_, c4) => .ok (.define name v, c4)
termination_by structural f _ => f

/-- `this.set()`: advance past the `set!` token, `consume` a symbol name,
parse the value expression, `consume` the closing `)`. -/
def setRule (tokens : List Token) : Nat → Nat →
    Except ParseError (Expr × Nat)
  | 0, _ => .error .fuelOut
  | f + 1, c =>
    match consume tokens .symbol (c + 1) with
    | .error e => .error e
    | .ok (name, c2) =>
      match expression tokens f c2 with
      | .error e => .error e
      | .ok (v, c3) =>
        match consume tokens .rightBracket c3 with
        | .error e => .error e
        | .ok (_, c4) => .ok (.setE name v, c4)
termination_by structural f _ => f

/-- `this.let()`: advance past the `let` token, `consume` a `(`, parse
bindings until `)`, parse body expressions until the outer `)`. -/
def letRule (tokens : List Token) : Nat → Nat →
    Except ParseError (Expr × Nat)
  | 0, _ => .error .fuelOut
  | f + 1, c =>
    match consume tokens .leftBracket (c + 1) with
    | .error e => .error e
    | .ok (_, c2) =>
      match letBindingsLoop tokens f c2 with
      | .error e => .error e
      | .ok (bs, c3) =>
        match exprsUntilRB tokens f c3 with
        | .error e => .error e
        | .ok (body, c4) => .ok (.letE bs body, c4)
termination_by structural f _ => f

/-- The loop `while (!this.match(RightBracket))
bindings.push(this.letBinding())` of `this.let()`. -/
def letBindingsLoop (tokens : List Token) : Nat → Nat →
    Except ParseError (List (Token × Expr) × Nat)
  | 0, _ => .error .fuelOut
  | f + 1, c =>
    match mtch tokens .rightBracket c with
    | .error e => .error e
    | .ok (true, c1) => .ok ([], c1)
    | .ok (false, _) =>
      match letBinding tokens f c with
      | .error e => .error e
      | .ok (b, c1) =>
        match letBindingsLoop tokens f c1 with
        | .error e => .error e
        | .ok (bs, c2) => .ok (b :: bs, c2)
termination_by structural f _ => f

/-- `this.letBinding()`: `consume` a `(`, `consume` a symbol name, parse
the value expression, `consume` the closing `)`. -/
def letBinding (tokens : List Token) : Nat → Nat →
    Except ParseError ((Token × Expr) × Nat)
  | 0, _ => .error .fuelOut
  | f + 1, c =>
    match consume tokens .leftBracket c with
    | .error e => .error e
    | .ok (_, c1) =>
      match consume tokens .symbol c1 with
      | .error e => .error e
      | .ok (name, c2) =>
        match expression tokens f c2 with
        | .error e => .error e
        | .ok (v, c3) =>
          match consume tokens .rightBracket c3 with
          | .error e => .error e
          | .ok (_, c4) => .ok ((name, v), c4)
termination_by structural f _ => f

/-- `this.lambda()`: advance past the `lambda` token, `consume` a `(`,
`consume` symbol parameters until `)`, parse body expressions until the
outer `)`. -/
def lambdaRule (tokens : List Token) : Nat → Nat →
    Except ParseError (Expr × Nat)
  | 0, _ => .error .fuelOut
  | f + 1, c =>
    match consume tokens .leftBracket (c + 1) with
    | .error e => .error e
    | .ok (_, c2) =>
      match lambdaParams tokens f c2 with
      | .error e => .error e
      | .ok (ps, c3) =>
        match exprsUntilRB tokens f c3 with
        | .error e => .error e
        | .ok (body, c4) => .ok (.lambda ps body, c4)
termination_by structural f _ => f

/-- The loop `while (!this.match(RightBracket))
params.push(this.consume(Symbol))` of `this.lambda()`. -/
def lambdaParams (tokens : List Token) : Nat → Nat →
    Except ParseError (List Token × Nat)
  | 0, _ => .error .fuelOut
  | f + 1, c =>
    match mtch tokens .rightBracket c with
    | .error e => .error e
    | .ok (true, c1) => .ok ([], c1)
    | .ok (false, _) =>
      match consume tokens .symbol c with
      | .error e => .error e
      | .ok (t, c1) =>
        match lambdaParams tokens f c1 with
        | .error e => .error e
        | .ok (ps, c2) => .ok (t :: ps, c2)
termination_by structural f _ => f

end

/-- The loop of `this.parse()`: `while (!this.isAtEnd())
expressions.push(this.expression())`, where `isAtEnd` peeks and compares
against the end-of-input type. -/
def parseLoop (tokens : List Token) : Nat → Nat →
    Except ParseError (List Expr × Nat)
  | 0, _ => .error .fuelOut
  | f + 1, c =>
    match peek tokens c with
    | .error e => .error e
    | .ok t =>
      if t.type = .eof then .ok ([], c)
      else
        match expression tokens f c with
        | .error e => .error e
        | .ok (x, c1) =>
          match parseLoop tokens f c1 with
          | .error e => .error e
          | .ok (xs, c2) => .ok (x :: xs, c2)
termination_by structural f _ => f

/-- `new Parser(tokens).parse()`: run the top-level loop from cursor 0.
The fuel `2 * tokens.length + 3` is an upper bound on the recursion depth;
we prove below that it never runs out on an end-of-input-terminated
stream. -/
def parse (tokens : List Token) : Except ParseError (List Expr) :=
  match parseLoop tokens (2 * tokens.length + 3) 0 with
  | .error e => .error e
  | .ok (xs, _) => .ok xs

end Parser

/-- Modelled from the spec: the scanner's left-bracket token. -/
def lparenTok : Token := ⟨.leftBracket, "(", none⟩

/-- Modelled from the spec: the scanner's right-bracket token. -/
def rparenTok : Token := ⟨.rightBracket, ")", none⟩

/-- Modelled from the spec: the scanner's end-of-input sentinel token,
whose lexeme is the empty remainder of the source text. -/
def eofTok : Token := ⟨.eof, "", none⟩

/-- Modelled from the spec: a symbol token with the given lexeme. -/
def symTok (s : String) : Token := ⟨.symbol, s, none⟩

/-- Modelled from the spec: a number token with its decoded value. -/
def numTok (n : Int) : Token := ⟨.number, toString n, some (.num n)⟩

/-- An end-of-input-terminated token stream, per the spec's input
contract: a finite sequence whose final element is the single end-of-input
token. -/
def EofTerminated (tokens : List Token) : Prop :=
  ∃ ts : List Token,
    tokens = ts ++ [eofTok] ∧ ∀ t ∈ ts, t.type ≠ TokenType.eof

/-- Cursor progress, stated for every function of the mutual block at one
fuel value: a successful run strictly advances the cursor. This is the
formal content of "every expression parse either throws or strictly
advances the cursor". -/
structure ProgressAt (tokens : List Token) (f : Nat) : Prop where
  expressionP : ∀ {c : Nat} {r : Expr} {c' : Nat},
    Parser.expression tokens f c = .ok (r, c') → c < c'
  callP : ∀ {c : Nat} {r : Expr} {c' : Nat},
    Parser.call tokens f c = .ok (r, c') → c < c'
  exprsP : ∀ {c : Nat} {xs : List Expr} {c' : Nat},
    Parser.exprsUntilRB tokens f c = .ok (xs, c') → c < c'
  ifP : ∀ {c : Nat} {r : Expr} {c' : Nat},
    Parser.ifRule tokens f c = .ok (r, c') → c < c'
  defineP : ∀ {c : Nat} {r : Expr} {c' : Nat},
    Parser.defineRule tokens f c = .ok (r, c') → c < c'
  setP : ∀ {c : Nat} {r : Expr} {c' : Nat},
    Parser.setRule tokens f c = .ok (r, c') → c < c'
  letP : ∀ {c : Nat} {r : Expr} {c' : Nat},
    Parser.letRule tokens f c = .ok (r, c') → c < c'
  letLoopP : ∀ {c : Nat} {bs : List (Token × Expr)} {c' : Nat},
    Parser.letBindingsLoop tokens f c = .ok (bs, c') → c < c'
  letBindingP : ∀ {c : Nat} {b : Token × Expr} {c' : Nat},
    Parser.letBinding tokens f c = .ok (b, c') → c < c'
  lambdaP : ∀ {c : Nat} {r : Expr} {c' : Nat},
    Parser.lambdaRule tokens f c = .ok (r, c') → c < c'
  lambdaParamsP : ∀ {c : Nat} {ps : List Token} {c' : Nat},
    Parser.lambdaParams tokens f c = .ok (ps, c') → c < c'

/-- Fuel sufficiency at distance `m`: when at most `m` tokens remain ahead
of the cursor, the stated fuel amounts keep every parsing function from
running out of fuel. -/
structure NoFuelOutAt (tokens : List Token) (m : Nat) : Prop where
  expressionNF : ∀ {c f : Nat}, tokens.length - c ≤ m → 2 * m + 1 ≤ f →
    Parser.expression tokens f c ≠ .error .fuelOut
  letBindingNF : ∀ {c f : Nat}, tokens.length - c ≤ m → 2 * m + 1 ≤ f →
    Parser.letBinding tokens f c ≠ .error .fuelOut
  callNF : ∀ {c f : Nat}, tokens.length - c ≤ m → 2 * m + 2 ≤ f →
    Parser.call tokens f c ≠ .error .fuelOut
  exprsNF : ∀ {c f : Nat}, tokens.length - c ≤ m → 2 * m + 2 ≤ f →
    Parser.exprsUntilRB tokens f c ≠ .error .fuelOut
  ifNF : ∀ {c f : Nat}, tokens.length - c ≤ m → 2 * m + 2 ≤ f →
    Parser.ifRule tokens f c ≠ .error .fuelOut
  defineNF : ∀ {c f : Nat}, tokens.length - c ≤ m → 2 * m + 2 ≤ f →
    Parser.defineRule tokens f c ≠ .error .fuelOut
  setNF : ∀ {c f : Nat}, tokens.length - c ≤ m → 2 * m + 2 ≤ f →
    Parser.setRule tokens f c ≠ .error .fuelOut
  letNF : ∀ {c f : Nat}, tokens.length - c ≤ m → 2 * m + 2 ≤ f →
    Parser.letRule tokens f c ≠ .error .fuelOut
  letLoopNF : ∀ {c f : Nat}, tokens.length - c ≤ m → 2 * m + 2 ≤ f →
    Parser.letBindingsLoop tokens f c ≠ .error .fuelOut
  lambdaNF : ∀ {c f : Nat}, tokens.length - c ≤ m → 2 * m + 2 ≤ f →
    Parser.lambdaRule tokens f c ≠ .error .fuelOut
  lambdaParamsNF : ∀ {c f : Nat}, tokens.length - c ≤ m → 2 * m + 2 ≤ f →
    Parser.lambdaParams tokens f c ≠ .error .fuelOut
  parseLoopNF : ∀ {c f : Nat}, tokens.length - c ≤ m → 2 * m + 3 ≤ f →
    Parser.parseLoop tokens f c ≠ .error .fuelOut

/-- A good parser result for an end-of-input-terminated stream: not an
out-of-bounds crash, and on success the cursor stays at or before the
index of the end-of-input token (`ts.length`). -/
def GoodRes {α : Type} (ts : List Token) (res : Except ParseError (α × Nat)) :
    Prop :=
  res ≠ .error .oob ∧ ∀ x c', res = .ok (x, c') → c' ≤ ts.length

/-- No out-of-bounds access on an end-of-input-terminated stream: every
parsing function, run at a cursor within the documented entry range,
neither crashes with an out-of-bounds access nor moves the cursor past the
end-of-input index. -/
structure NoOobAt (ts : List Token) (f : Nat) : Prop where
  expressionO : ∀ {c : Nat}, c ≤ ts.length →
    GoodRes ts (Parser.expression (ts ++ [eofTok]) f c)
  callO : ∀ {c : Nat}, c ≤ ts.length →
    GoodRes ts (Parser.call (ts ++ [eofTok]) f c)
  exprsO : ∀ {c : Nat}, c ≤ ts.length →
    GoodRes ts (Parser.exprsUntilRB (ts ++ [eofTok]) f c)
  ifO : ∀ {c : Nat}, c + 1 ≤ ts.length →
    GoodRes ts (Parser.ifRule (ts ++ [eofTok]) f c)
  defineO : ∀ {c : Nat}, c + 1 ≤ ts.length →
    GoodRes ts (Parser.defineRule (ts ++ [eofTok]) f c)
  setO : ∀ {c : Nat}, c + 1 ≤ ts.length →
    GoodRes ts (Parser.setRule (ts ++ [eofTok]) f c)
  letO : ∀ {c : Nat}, c + 1 ≤ ts.length →
    GoodRes ts (Parser.letRule (ts ++ [eofTok]) f c)
  letLoopO : ∀ {c : Nat}, 1 ≤ c → c ≤ ts.length →
    GoodRes ts (Parser.letBindingsLoop (ts ++ [eofTok]) f c)
  letBindingO : ∀ {c : Nat}, 1 ≤ c → c ≤ ts.length →
    GoodRes ts (Parser.letBinding (ts ++ [eofTok]) f c)
  lambdaO : ∀ {c : Nat}, c + 1 ≤ ts.length →
    GoodRes ts (Parser.lambdaRule (ts ++ [eofTok]) f c)
  lambdaParamsO : ∀ {c : Nat}, 1 ≤ c → c ≤ ts.length →
    GoodRes ts (Parser.lambdaParams (ts ++ [eofTok]) f c)
  parseLoopO : ∀ {c : Nat}, c ≤ ts.length →
    GoodRes ts (Parser.parseLoop (ts ++ [eofTok]) f c)

/-- C1: the claim says that for a well-formed `if` form omitting the
alternative, `parse` succeeds with an `If` node with no alternative,
consuming exactly one closing right bracket. The code does the opposite:
after `match(RightBracket)` has already consumed the single closing
bracket, `if()` unconditionally `consume`s a second one, so the token
sequence of `(if x 1)` followed by end-of-input throws a `SyntaxError`
(`Unexpected token RightBracket, expected RightBracket`), while the same
form with an alternative present parses fine. This theorem evaluates the
embedded code at the failing input and, for contrast, at the
with-alternative input. -/
theorem c1_if_without_alternative_evaluation :
    Parser.parse [lparenTok, symTok "if", symTok "x", numTok 1, rparenTok,
        eofTok]
      = .error (.unexpectedConsume .rightBracket .rightBracket) ∧
    Parser.parse [lparenTok, symTok "if", symTok "x", numTok 1, numTok 2,
        rparenTok, eofTok]
      = .ok [.ifE (.sym (symTok "x")) (.literal (.lit (.num 1)))
          (some (.literal (.lit (.num 2))))] :=
  ⟨rfl, rfl⟩

/-- C3: unmatched brackets raise a `SyntaxError` via the atom rule naming
the current token's type: for the token sequence of `(()` the message
names the end-of-input token type, and for a single bare right bracket it
names the right-bracket token type. -/
theorem c3_unmatched_bracket_errors :
    Parser.parse [lparenTok, lparenTok, rparenTok, eofTok]
      = .error (.unexpectedAtom .eof) ∧
    Parser.parse [rparenTok, eofTok]
      = .error (.unexpectedAtom .rightBracket) :=
  ⟨rfl, rfl⟩

/-- C4: the token sequence of `(+ (+ 1 2) (+ 3 4))` parses to a single
`Call` whose callee is `Symbol(+)` and whose two arguments are
`Call(Symbol(+), [Literal(1), Literal(2)])` and
`Call(Symbol(+), [Literal(3), Literal(4)])` in that order: the AST mirrors
the bracket nesting exactly with arguments in source order. -/
theorem c4_nested_call_ast :
    Parser.parse [lparenTok, symTok "+", lparenTok, symTok "+", numTok 1,
        numTok 2, rparenTok, lparenTok, symTok "+", numTok 3, numTok 4,
        rparenTok, rparenTok, eofTok]
      = .ok [.call (.sym (symTok "+"))
          [.call (.sym (symTok "+"))
            [.literal (.lit (.num 1)), .literal (.lit (.num 2))],
           .call (.sym (symTok "+"))
            [.literal (.lit (.num 3)), .literal (.lit (.num 4))]]] :=
  rfl

/-- C6: a `lambda` form with an empty parameter list and no body
expressions, and a `let` form with an empty binding list and no body
expressions, both parse successfully to a `Lambda` (resp. `Let`) node with
empty sequences, raising no error. -/
theorem c6_empty_lambda_and_let_parse :
    Parser.parse [lparenTok, symTok "lambda", lparenTok, rparenTok,
        rparenTok, eofTok]
      = .ok [.lambda [] []] ∧
    Parser.parse [lparenTok, symTok "let", lparenTok, rparenTok, rparenTok,
        eofTok]
      = .ok [.letE [] []] :=
  ⟨rfl, rfl⟩

/-- C7: an input consisting only of a matched empty bracket pair followed
by end-of-input parses to a one-element sequence containing a `Literal`
carrying the distinguished empty-list sentinel (`Parser.NULL_VALUE`),
which is distinct from every number, string or boolean literal value. -/
theorem c7_empty_pair_literal :
    Parser.parse [lparenTok, rparenTok, eofTok]
      = .ok [.literal Parser.NULL_VALUE] ∧
    ∀ l : Lit, Parser.NULL_VALUE ≠ Value.lit l :=
  ⟨rfl, fun l h => by cases h⟩

/-- Closed instance of `c7_empty_pair_literal`: the sentinel differs from
the concrete number literal `0`. -/
theorem c7_empty_pair_literal_witness :
    Parser.parse [lparenTok, rparenTok, eofTok]
      = .ok [.literal Parser.NULL_VALUE] ∧
    Parser.NULL_VALUE ≠ Value.lit (.num 0) :=
  ⟨c7_empty_pair_literal.1, c7_empty_pair_literal.2 (.num 0)⟩


/-- `mtch` with the cursor out of bounds: the out-of-bounds marker. -/
theorem mtch_none {tokens : List Token} {tt : TokenType} {c : Nat}
    (hq : tokens[c]? = none) : Parser.mtch tokens tt c = .error .oob := by
  simp only [Parser.mtch, Parser.check, Parser.peek, hq]

/-- `mtch` consumes a matching current token. -/
theorem mtch_some_eq {tokens : List Token} {tt : TokenType} {c : Nat}
    {t : Token} (hq : tokens[c]? = some t) (ht : t.type = tt) :
    Parser.mtch tokens tt c = .ok (true, c + 1) := by
  simp only [Parser.mtch, Parser.check, Parser.peek, hq, ht]
  simp

/-- `mtch` leaves a non-matching current token in place. -/
theorem mtch_some_ne {tokens : List Token} {tt : TokenType} {c : Nat}
    {t : Token} (hq : tokens[c]? = some t) (ht : t.type ≠ tt) :
    Parser.mtch tokens tt c = .ok (false, c) := by
  simp only [Parser.mtch, Parser.check, Parser.peek, hq]
  simp [ht]

/-- `consume` with the cursor out of bounds: the out-of-bounds marker. -/
theorem consume_none {tokens : List Token} {tt : TokenType} {c : Nat}
    (hq : tokens[c]? = none) : Parser.consume tokens tt c = .error .oob := by
  simp only [Parser.consume, Parser.peek, hq]

/-- `consume` advances past a matching current token. -/
theorem consume_some_eq {tokens : List Token} {tt : TokenType} {c : Nat}
    {t : Token} (hq : tokens[c]? = some t) (ht : t.type = tt) :
    Parser.consume tokens tt c = .ok (t, c + 1) := by
  simp only [Parser.consume, Parser.peek, hq]
  simp [ht]

/-- `consume` on a type mismatch with a previous token available: the
`SyntaxError` built from the previous token's type. -/
theorem consume_some_ne {tokens : List Token} {tt : TokenType} {c : Nat}
    {t p : Token} (hq : tokens[c]? = some t) (ht : t.type ≠ tt)
    (hc : c ≠ 0) (hp : tokens[c - 1]? = some p) :
    Parser.consume tokens tt c = .error (.unexpectedConsume p.type tt) := by
  simp only [Parser.consume, Parser.peek, Parser.previous, hq, hp]
  simp [ht, hc]

/-- `consume` on a type mismatch at cursor 0: `previous()` reads index
`-1`, an out-of-bounds access. -/
theorem consume_mismatch_zero {tokens : List Token} {tt : TokenType}
    {c : Nat} {t : Token} (hq : tokens[c]? = some t) (ht : t.type ≠ tt)
    (hc : c = 0) : Parser.consume tokens tt c = .error .oob := by
  simp only [Parser.consume, Parser.peek, Parser.previous, hq]
  simp [ht, hc]

/-- `consume` on a type mismatch when the previous index is out of
bounds. -/
theorem consume_mismatch_prev_none {tokens : List Token} {tt : TokenType}
    {c : Nat} {t : Token} (hq : tokens[c]? = some t) (ht : t.type ≠ tt)
    (hc : c ≠ 0) (hp : tokens[c - 1]? = none) :
    Parser.consume tokens tt c = .error .oob := by
  simp only [Parser.consume, Parser.peek, Parser.previous, hq, hp]
  simp [ht, hc]

/-- Inversion for `mtch` success with `true`: the cursor advanced by one
past a token of the requested type. -/
theorem mtch_true_inv {tokens : List Token} {tt : TokenType} {c c' : Nat}
    (h : Parser.mtch tokens tt c = .ok (true, c')) :
    c' = c + 1 ∧ ∃ t, tokens[c]? = some t ∧ t.type = tt := by
  cases hq : tokens[c]? with
  | none => rw [mtch_none hq] at h; cases h
  | some u =>
    by_cases hu : u.type = tt
    · rw [mtch_some_eq hq hu] at h
      cases h
      exact ⟨rfl, u, rfl, hu⟩
    · rw [mtch_some_ne hq hu] at h
      simp at h

/-- Inversion for `mtch` success with `false`: the cursor is unchanged and
the current token exists but has a different type. -/
theorem mtch_false_inv {tokens : List Token} {tt : TokenType} {c c₀ : Nat}
    (h : Parser.mtch tokens tt c = .ok (false, c₀)) :
    c₀ = c ∧ ∃ t, tokens[c]? = some t ∧ t.type ≠ tt := by
  cases hq : tokens[c]? with
  | none => rw [mtch_none hq] at h; cases h
  | some u =>
    by_cases hu : u.type = tt
    · rw [mtch_some_eq hq hu] at h
      simp at h
    · rw [mtch_some_ne hq hu] at h
      cases h
      exact ⟨rfl, u, rfl, hu⟩

/-- Inversion for `mtch` failure: only an out-of-bounds peek. -/
theorem mtch_error_inv {tokens : List Token} {tt : TokenType} {c : Nat}
    {e : ParseError} (h : Parser.mtch tokens tt c = .error e) :
    e = .oob ∧ tokens[c]? = none := by
  cases hq : tokens[c]? with
  | none => rw [mtch_none hq] at h; cases h; exact ⟨rfl, rfl⟩
  | some u =>
    by_cases hu : u.type = tt
    · rw [mtch_some_eq hq hu] at h; cases h
    · rw [mtch_some_ne hq hu] at h; cases h

/-- Inversion for `consume` success: the consumed token is the current
one, it has the requested type, and the cursor advanced by one. -/
theorem consume_ok_inv {tokens : List Token} {tt : TokenType} {c c' : Nat}
    {t : Token} (h : Parser.consume tokens tt c = .ok (t, c')) :
    tokens[c]? = some t ∧ t.type = tt ∧ c' = c + 1 := by
  cases hq : tokens[c]? with
  | none => rw [consume_none hq] at h; cases h
  | some u =>
    by_cases hu : u.type = tt
    · rw [consume_some_eq hq hu] at h
      cases h
      exact ⟨rfl, hu, rfl⟩
    · rcases Nat.eq_zero_or_pos c with hc | hc
      · rw [consume_mismatch_zero hq hu hc] at h; cases h
      · cases hp : tokens[c - 1]? with
        | none =>
          rw [consume_mismatch_prev_none hq hu (by omega) hp] at h
          cases h
        | some p =>
          rw [consume_some_ne hq hu (by omega) hp] at h
          cases h

/-- Inversion for `consume` failure: either an out-of-bounds access or the
mismatch `SyntaxError` carrying the expected type. -/
theorem consume_error_inv {tokens : List Token} {tt : TokenType} {c : Nat}
    {e : ParseError} (h : Parser.consume tokens tt c = .error e) :
    e = .oob ∨ ∃ pt, e = .unexpectedConsume pt tt := by
  cases hq : tokens[c]? with
  | none =>
    rw [consume_none hq] at h
    exact .inl (Except.error.inj h).symm
  | some u =>
    by_cases hu : u.type = tt
    · rw [consume_some_eq hq hu] at h
      cases h
    · rcases Nat.eq_zero_or_pos c with hc | hc
      · rw [consume_mismatch_zero hq hu hc] at h
        exact .inl (Except.error.inj h).symm
      · cases hp : tokens[c - 1]? with
        | none =>
          rw [consume_mismatch_prev_none hq hu (by omega) hp] at h
          exact .inl (Except.error.inj h).symm
        | some p =>
          rw [consume_some_ne hq hu (by omega) hp] at h
          exact .inr ⟨p.type, (Except.error.inj h).symm⟩

/-- `atom` with the cursor out of bounds: the out-of-bounds marker. -/
theorem atom_none {tokens : List Token} {c : Nat}
    (hq : tokens[c]? = none) : Parser.atom tokens c = .error .oob := by
  simp only [Parser.atom]
  rw [mtch_none hq]

/-- `atom` on an in-bounds token: a `Symbol` for a symbol token, a
`Literal` for a number/string/boolean token, and the `SyntaxError` built
from the current token's type otherwise. -/
theorem atom_cases (tokens : List Token) (c : Nat) (t : Token)
    (hq : tokens[c]? = some t) :
    (Parser.atom tokens c = .ok (.sym t, c + 1) ∧
      t.type = TokenType.symbol) ∨
    (Parser.atom tokens c = .ok (.literal t.getLiteral, c + 1) ∧
      (t.type = TokenType.number ∨ t.type = TokenType.string ∨
        t.type = TokenType.boolean)) ∨
    (Parser.atom tokens c = .error (.unexpectedAtom t.type) ∧
      t.type ≠ TokenType.symbol ∧ t.type ≠ TokenType.number ∧
      t.type ≠ TokenType.string ∧ t.type ≠ TokenType.boolean) := by
  cases htt : t.type with
  | symbol =>
    refine .inl ⟨?_, rfl⟩
    simp only [Parser.atom]
    rw [mtch_some_eq hq htt]
    simp [Parser.previous, hq]
  | number =>
    refine .inr (.inl ⟨?_, .inl rfl⟩)
    simp only [Parser.atom]
    rw [mtch_some_ne hq (by simp [htt]), mtch_some_eq hq htt]
    simp [Parser.previous, hq]
  | string =>
    refine .inr (.inl ⟨?_, .inr (.inl rfl)⟩)
    simp only [Parser.atom]
    rw [mtch_some_ne hq (by simp [htt]), mtch_some_ne hq (by simp [htt]),
      mtch_some_eq hq htt]
    simp [Parser.previous, hq]
  | boolean =>
    refine .inr (.inl ⟨?_, .inr (.inr rfl)⟩)
    simp only [Parser.atom]
    rw [mtch_some_ne hq (by simp [htt]), mtch_some_ne hq (by simp [htt]),
      mtch_some_ne hq (by simp [htt]), mtch_some_eq hq htt]
    simp [Parser.previous, hq]
  | leftBracket =>
    refine .inr (.inr ⟨?_, by simp [htt]⟩)
    simp only [Parser.atom]
    rw [mtch_some_ne hq (by simp [htt]), mtch_some_ne hq (by simp [htt]),
      mtch_some_ne hq (by simp [htt]), mtch_some_ne hq (by simp [htt])]
    simp [Parser.peek, hq, htt]
  | rightBracket =>
    refine .inr (.inr ⟨?_, by simp [htt]⟩)
    simp only [Parser.atom]
    rw [mtch_some_ne hq (by simp [htt]), mtch_some_ne hq (by simp [htt]),
      mtch_some_ne hq (by simp [htt]), mtch_some_ne hq (by simp [htt])]
    simp [Parser.peek, hq, htt]
  | eof =>
    refine .inr (.inr ⟨?_, by simp [htt]⟩)
    simp only [Parser.atom]
    rw [mtch_some_ne hq (by simp [htt]), mtch_some_ne hq (by simp [htt]),
      mtch_some_ne hq (by simp [htt]), mtch_some_ne hq (by simp [htt])]
    simp [Parser.peek, hq, htt]

/-- Inversion for `atom` success: the cursor advanced by one past a token
that is not the end-of-input token. -/
theorem atom_ok_inv {tokens : List Token} {c c' : Nat} {r : Expr}
    (h : Parser.atom tokens c = .ok (r, c')) :
    c' = c + 1 ∧ ∃ t, tokens[c]? = some t ∧ t.type ≠ TokenType.eof := by
  cases hq : tokens[c]? with
  | none => rw [atom_none hq] at h; cases h
  | some u =>
    rcases atom_cases tokens c u hq with ⟨ha, ht⟩ | ⟨ha, ht⟩ | ⟨ha, _⟩
    · rw [ha] at h
      cases h
      exact ⟨rfl, u, rfl, by simp [ht]⟩
    · rw [ha] at h
      cases h
      rcases ht with ht | ht | ht <;> exact ⟨rfl, u, rfl, by simp [ht]⟩
    · rw [ha] at h
      cases h

/-- Inversion for `atom` failure: an out-of-bounds access or the
`SyntaxError` built from the current token's type. -/
theorem atom_error_inv {tokens : List Token} {c : Nat} {e : ParseError}
    (h : Parser.atom tokens c = .error e) :
    (e = .oob ∧ tokens[c]? = none) ∨ ∃ ty, e = .unexpectedAtom ty := by
  cases hq : tokens[c]? with
  | none =>
    rw [atom_none hq] at h
    exact .inl ⟨(Except.error.inj h).symm, rfl⟩
  | some u =>
    rcases atom_cases tokens c u hq with ⟨ha, _⟩ | ⟨ha, _⟩ | ⟨ha, _⟩
    · rw [ha] at h; cases h
    · rw [ha] at h; cases h
    · rw [ha] at h
      exact .inr ⟨u.type, (Except.error.inj h).symm⟩

/-- C2: whenever `consume(type)` is called with the current token's type
differing from the expected type (and a previous token exists, as at every
reachable `consume` call site), the raised `SyntaxError` is built from the
type of the *previous*, already consumed token together with the expected
type — not from the current token's type. -/
theorem c2_consume_mismatch_blames_previous (tokens : List Token)
    (tt : TokenType) (c : Nat) (t p : Token)
    (hcur : tokens[c]? = some t) (hne : t.type ≠ tt)
    (hc0 : c ≠ 0) (hprev : tokens[c - 1]? = some p) :
    Parser.consume tokens tt c = .error (.unexpectedConsume p.type tt) :=
  consume_some_ne hcur hne hc0 hprev

/-- Closed instance of `c2_consume_mismatch_blames_previous`: in
`[Symbol x, Number 1]` at cursor 1, consuming a right bracket fails and
the error is built from the previous token's type (`Symbol`), although the
current token is a `Number`. -/
theorem c2_consume_mismatch_blames_previous_witness :
    Parser.consume [symTok "x", numTok 1] .rightBracket 1
      = .error (.unexpectedConsume .symbol .rightBracket) :=
  c2_consume_mismatch_blames_previous [symTok "x", numTok 1] .rightBracket 1
    (numTok 1) (symTok "x") rfl (by decide) (by decide) rfl

/-- Every token in a parameter list produced by the `lambda` parameter
loop was consumed by `consume(Symbol)`, hence is a symbol token. -/
theorem lambdaParams_symbols (tokens : List Token) :
    ∀ f c ps c', Parser.lambdaParams tokens f c = .ok (ps, c') →
      ∀ t ∈ ps, t.type = TokenType.symbol := by
  intro f
  induction f with
  | zero =>
    intro c ps c' h
    exact absurd h (by simp [Parser.lambdaParams])
  | succ f ih =>
    intro c ps c' h
    simp only [Parser.lambdaParams] at h
    split at h
    · cases h
    · cases h
      simp
    · split at h
      · cases h
      · split at h
        · cases h
        · cases h
          intro t ht
          rename_i a1 a2 a3 a4 t0 c1 hcs a5 ps2 hrec
          rcases List.mem_cons.mp ht with rfl | hmem
          · exact (consume_ok_inv hcs).2.1
          · exact ih c1 ps2 c' hrec t hmem

/-- C5: a `lambda` form whose parameter list contains a non-symbol token
raises a `SyntaxError` (evaluated on the token sequence of
`(lambda (1) 2)`), and every successfully parsed parameter list contains
only symbol tokens. -/
theorem c5_lambda_params_only_symbols :
    (Parser.parse [lparenTok, symTok "lambda", lparenTok, numTok 1,
        rparenTok, numTok 2, rparenTok, eofTok]
      = .error (.unexpectedConsume .leftBracket .symbol)) ∧
    ∀ (tokens : List Token) (f c : Nat) (ps : List Token) (c' : Nat),
      Parser.lambdaParams tokens f c = .ok (ps, c') →
      ∀ t ∈ ps, t.type = TokenType.symbol :=
  ⟨rfl, fun tokens f c ps c' h => lambdaParams_symbols tokens f c ps c' h⟩

/-- Closed instance of `c5_lambda_params_only_symbols`: the parameter loop
run on the tokens `x )` yields the single symbol token `x`. -/
theorem c5_lambda_params_only_symbols_witness :
    ∀ t ∈ [symTok "x"], t.type = TokenType.symbol :=
  c5_lambda_params_only_symbols.2 [symTok "x", rparenTok] 2 0 [symTok "x"] 2
    rfl

/-- C10: special-form keywords are recognized only by lexeme comparison at
the head position right after an opening bracket. At any other expression
position a symbol token whose lexeme is `if`, `define`, `set!`, `let` or
`lambda` goes through `atom` and parses as an ordinary `Symbol`
expression: `atom` builds a `Symbol` from any symbol token whatever its
lexeme, and the token sequence of `(f if let)` parses to a call with the
keyword-named symbols as plain arguments. -/
theorem c10_keywords_only_at_head :
    (∀ (tokens : List Token) (c : Nat) (t : Token),
      tokens[c]? = some t → t.type = TokenType.symbol →
      Parser.atom tokens c = .ok (.sym t, c + 1)) ∧
    Parser.parse [lparenTok, symTok "f", symTok "if", symTok "let",
        rparenTok, eofTok]
      = .ok [.call (.sym (symTok "f"))
          [.sym (symTok "if"), .sym (symTok "let")]] := by
  refine ⟨fun tokens c t hq ht => ?_, rfl⟩
  rcases atom_cases tokens c t hq with ⟨ha, _⟩ | ⟨_, ht'⟩ | ⟨_, ht', _⟩
  · exact ha
  · rcases ht' with h' | h' | h' <;> rw [ht] at h' <;> cases h'
  · exact absurd ht ht'

/-- Closed instance of `c10_keywords_only_at_head`: `atom` on the lone
symbol token `if` yields the `Symbol` expression. -/
theorem c10_keywords_only_at_head_witness :
    Parser.atom [symTok "if"] 0 = .ok (.sym (symTok "if"), 1) :=
  c10_keywords_only_at_head.1 [symTok "if"] 0 (symTok "if") rfl rfl

/-- `peek` on an in-bounds cursor. -/
theorem peek_some {tokens : List Token} {c : Nat} {t : Token}
    (hq : tokens[c]? = some t) : Parser.peek tokens c = .ok t := by
  simp [Parser.peek, hq]

/-- `peek` on an out-of-bounds cursor. -/
theorem peek_none {tokens : List Token} {c : Nat}
    (hq : tokens[c]? = none) : Parser.peek tokens c = .error .oob := by
  simp [Parser.peek, hq]

/-- With no fuel every function fails, so progress holds vacuously. -/
theorem progressAt_zero (tokens : List Token) : ProgressAt tokens 0 := by
  constructor <;> (intro c r c' h; exact absurd h (by
    simp [Parser.expression, Parser.call, Parser.exprsUntilRB,
      Parser.ifRule, Parser.defineRule, Parser.setRule, Parser.letRule,
      Parser.letBindingsLoop, Parser.letBinding, Parser.lambdaRule,
      Parser.lambdaParams]))

/-- Progress step for the `lambda` parameter loop. -/
theorem lambdaParams_progress_step (tokens : List Token) (f : Nat)
    (ih : ProgressAt tokens f) {c : Nat} {ps : List Token} {c' : Nat}
    (h : Parser.lambdaParams tokens (f + 1) c = .ok (ps, c')) : c < c' := by
  simp only [Parser.lambdaParams] at h
  cases hm : Parser.mtch tokens .rightBracket c with
  | error e => rw [hm] at h; cases h
  | ok bc =>
    obtain ⟨b, c1⟩ := bc
    cases b with
    | true =>
      rw [hm] at h
      simp only [] at h
      cases h
      obtain ⟨hm1, -⟩ := mtch_true_inv hm
      omega
    | false =>
      rw [hm] at h
      simp only [] at h
      cases hcs : Parser.consume tokens .symbol c with
      | error e => rw [hcs] at h; cases h
      | ok tc =>
        obtain ⟨t0, c2⟩ := tc
        rw [hcs] at h
        simp only [] at h
        cases hrec : Parser.lambdaParams tokens f c2 with
        | error e => rw [hrec] at h; cases h
        | ok pc =>
          obtain ⟨ps2, c3⟩ := pc
          rw [hrec] at h
          simp only [] at h
          cases h
          have h1 := (consume_ok_inv hcs).2.2
          have h2 := ih.lambdaParamsP hrec
          omega

/-- Progress step for `letBinding`. -/
theorem letBinding_progress_step (tokens : List Token) (f : Nat)
    (ih : ProgressAt tokens f) {c : Nat} {b : Token × Expr} {c' : Nat}
    (h : Parser.letBinding tokens (f + 1) c = .ok (b, c')) : c < c' := by
  simp only [Parser.letBinding] at h
  cases h1 : Parser.consume tokens .leftBracket c with
  | error e => rw [h1] at h; cases h
  | ok tc =>
    obtain ⟨t1, c1⟩ := tc
    rw [h1] at h
    simp only [] at h
    cases h2 : Parser.consume tokens .symbol c1 with
    | error e => rw [h2] at h; cases h
    | ok tc2 =>
      obtain ⟨t2, c2⟩ := tc2
      rw [h2] at h
      simp only [] at h
      cases h3 : Parser.expression tokens f c2 with
      | error e => rw [h3] at h; cases h
      | ok vc =>
        obtain ⟨v, c3⟩ := vc
        rw [h3] at h
        simp only [] at h
        cases h4 : Parser.consume tokens .rightBracket c3 with
        | error e => rw [h4] at h; cases h
        | ok tc4 =>
          obtain ⟨t4, c4⟩ := tc4
          rw [h4] at h
          simp only [] at h
          cases h
          have e1 := (consume_ok_inv h1).2.2
          have e2 := (consume_ok_inv h2).2.2
          have e3 := ih.expressionP h3
          have e4 := (consume_ok_inv h4).2.2
          omega

/-- Progress step for `define`. -/
theorem defineRule_progress_step (tokens : List Token) (f : Nat)
    (ih : ProgressAt tokens f) {c : Nat} {r : Expr} {c' : Nat}
    (h : Parser.defineRule tokens (f + 1) c = .ok (r, c')) : c < c' := by
  simp only [Parser.defineRule] at h
  cases h1 : Parser.consume tokens .symbol (c + 1) with
  | error e => rw [h1] at h; cases h
  | ok tc =>
    obtain ⟨t1, c2⟩ := tc
    rw [h1] at h
    simp only [] at h
    cases h2 : Parser.expression tokens f c2 with
    | error e => rw [h2] at h; cases h
    | ok vc =>
      obtain ⟨v, c3⟩ := vc
      rw [h2] at h
      simp only [] at h
      cases h3 : Parser.consume tokens .rightBracket c3 with
      | error e => rw [h3] at h; cases h
      | ok tc3 =>
        obtain ⟨t3, c4⟩ := tc3
        rw [h3] at h
        simp only [] at h
        cases h
        have e1 := (consume_ok_inv h1).2.2
        have e2 := ih.expressionP h2
        have e3 := (consume_ok_inv h3).2.2
        omega

/-- Progress step for `set!`. -/
theorem setRule_progress_step (tokens : List Token) (f : Nat)
    (ih : ProgressAt tokens f) {c : Nat} {r : Expr} {c' : Nat}
    (h : Parser.setRule tokens (f + 1) c = .ok (r, c')) : c < c' := by
  simp only [Parser.setRule] at h
  cases h1 : Parser.consume tokens .symbol (c + 1) with
  | error e => rw [h1] at h; cases h
  | ok tc =>
    obtain ⟨t1, c2⟩ := tc
    rw [h1] at h
    simp only [] at h
    cases h2 : Parser.expression tokens f c2 with
    | error e => rw [h2] at h; cases h
    | ok vc =>
      obtain ⟨v, c3⟩ := vc
      rw [h2] at h
      simp only [] at h
      cases h3 : Parser.consume tokens .rightBracket c3 with
      | error e => rw [h3] at h; cases h
      | ok tc3 =>
        obtain ⟨t3, c4⟩ := tc3
        rw [h3] at h
        simp only [] at h
        cases h
        have e1 := (consume_ok_inv h1).2.2
        have e2 := ih.expressionP h2
        have e3 := (consume_ok_inv h3).2.2
        omega

/-- Progress step for `if`. -/
theorem ifRule_progress_step (tokens : List Token) (f : Nat)
    (ih : ProgressAt tokens f) {c : Nat} {r : Expr} {c' : Nat}
    (h : Parser.ifRule tokens (f + 1) c = .ok (r, c')) : c < c' := by
  simp only [Parser.ifRule] at h
  cases h1 : Parser.expression tokens f (c + 1) with
  | error e => rw [h1] at h; cases h
  | ok tc =>
    obtain ⟨test, c2⟩ := tc
    rw [h1] at h
    simp only [] at h
    cases h2 : Parser.expression tokens f c2 with
    | error e => rw [h2] at h; cases h
    | ok cc =>
      obtain ⟨conseq, c3⟩ := cc
      rw [h2] at h
      simp only [] at h
      have e1 := ih.expressionP h1
      have e2 := ih.expressionP h2
      cases hm : Parser.mtch tokens .rightBracket c3 with
      | error e => rw [hm] at h; cases h
      | ok bc =>
        obtain ⟨b, c4⟩ := bc
        cases b with
        | true =>
          rw [hm] at h
          simp only [] at h
          cases h4 : Parser.consume tokens .rightBracket c4 with
          | error e => rw [h4] at h; cases h
          | ok tc4 =>
            obtain ⟨t4, c5⟩ := tc4
            rw [h4] at h
            simp only [] at h
            cases h
            obtain ⟨e3, -⟩ := mtch_true_inv hm
            have e4 := (consume_ok_inv h4).2.2
            omega
        | false =>
          rw [hm] at h
          simp only [] at h
          cases h3 : Parser.expression tokens f c3 with
          | error e => rw [h3] at h; cases h
          | ok ac =>
            obtain ⟨alt, c4'⟩ := ac
            rw [h3] at h
            simp only [] at h
            cases h4 : Parser.consume tokens .rightBracket c4' with
            | error e => rw [h4] at h; cases h
            | ok tc4 =>
              obtain ⟨t4, c5⟩ := tc4
              rw [h4] at h
              simp only [] at h
              cases h
              have e3 := ih.expressionP h3
              have e4 := (consume_ok_inv h4).2.2
              omega

/-- Progress step for `call`. -/
theorem call_progress_step (tokens : List Token) (f : Nat)
    (ih : ProgressAt tokens f) {c : Nat} {r : Expr} {c' : Nat}
    (h : Parser.call tokens (f + 1) c = .ok (r, c')) : c < c' := by
  simp only [Parser.call] at h
  cases h1 : Parser.expression tokens f c with
  | error e => rw [h1] at h; cases h
  | ok cc =>
    obtain ⟨callee, c1⟩ := cc
    rw [h1] at h
    simp only [] at h
    cases h2 : Parser.exprsUntilRB tokens f c1 with
    | error e => rw [h2] at h; cases h
    | ok ac =>
      obtain ⟨args, c2⟩ := ac
      rw [h2] at h
      simp only [] at h
      cases h
      have e1 := ih.expressionP h1
      have e2 := ih.exprsP h2
      omega

/-- Progress step for the shared expression-list loop. -/
theorem exprsUntilRB_progress_step (tokens : List Token) (f : Nat)
    (ih : ProgressAt tokens f) {c : Nat} {xs : List Expr} {c' : Nat}
    (h : Parser.exprsUntilRB tokens (f + 1) c = .ok (xs, c')) : c < c' := by
  simp only [Parser.exprsUntilRB] at h
  cases hm : Parser.mtch tokens .rightBracket c with
  | error e => rw [hm] at h; cases h
  | ok bc =>
    obtain ⟨b, c1⟩ := bc
    cases b with
    | true =>
      rw [hm] at h
      simp only [] at h
      cases h
      obtain ⟨e1, -⟩ := mtch_true_inv hm
      omega
    | false =>
      rw [hm] at h
      simp only [] at h
      cases h1 : Parser.expression tokens f c with
      | error e => rw [h1] at h; cases h
      | ok xc =>
        obtain ⟨x, c2⟩ := xc
        rw [h1] at h
        simp only [] at h
        cases h2 : Parser.exprsUntilRB tokens f c2 with
        | error e => rw [h2] at h; cases h
        | ok rc =>
          obtain ⟨rest, c3⟩ := rc
          rw [h2] at h
          simp only [] at h
          cases h
          have e1 := ih.expressionP h1
          have e2 := ih.exprsP h2
          omega

/-- Progress step for the `let` binding loop. -/
theorem letBindingsLoop_progress_step (tokens : List Token) (f : Nat)
    (ih : ProgressAt tokens f) {c : Nat} {bs : List (Token × Expr)}
    {c' : Nat}
    (h : Parser.letBindingsLoop tokens (f + 1) c = .ok (bs, c')) :
    c < c' := by
  simp only [Parser.letBindingsLoop] at h
  cases hm : Parser.mtch tokens .rightBracket c with
  | error e => rw [hm] at h; cases h
  | ok bc =>
    obtain ⟨b, c1⟩ := bc
    cases b with
    | true =>
      rw [hm] at h
      simp only [] at h
      cases h
      obtain ⟨e1, -⟩ := mtch_true_inv hm
      omega
    | false =>
      rw [hm] at h
      simp only [] at h
      cases h1 : Parser.letBinding tokens f c with
      | error e => rw [h1] at h; cases h
      | ok xc =>
        obtain ⟨x, c2⟩ := xc
        rw [h1] at h
        simp only [] at h
        cases h2 : Parser.letBindingsLoop tokens f c2 with
        | error e => rw [h2] at h; cases h
        | ok rc =>
          obtain ⟨rest, c3⟩ := rc
          rw [h2] at h
          simp only [] at h
          cases h
          have e1 := ih.letBindingP h1
          have e2 := ih.letLoopP h2
          omega

/-- Progress step for `let`. -/
theorem letRule_progress_step (tokens : List Token) (f : Nat)
    (ih : ProgressAt tokens f) {c : Nat} {r : Expr} {c' : Nat}
    (h : Parser.letRule tokens (f + 1) c = .ok (r, c')) : c < c' := by
  simp only [Parser.letRule] at h
  cases h1 : Parser.consume tokens .leftBracket (c + 1) with
  | error e => rw [h1] at h; cases h
  | ok tc =>
    obtain ⟨t1, c2⟩ := tc
    rw [h1] at h
    simp only [] at h
    cases h2 : Parser.letBindingsLoop tokens f c2 with
    | error e => rw [h2] at h; cases h
    | ok bsc =>
      obtain ⟨bs2, c3⟩ := bsc
      rw [h2] at h
      simp only [] at h
      cases h3 : Parser.exprsUntilRB tokens f c3 with
      | error e => rw [h3] at h; cases h
      | ok bodyc =>
        obtain ⟨body, c4⟩ := bodyc
        rw [h3] at h
        simp only [] at h
        cases h
        have e1 := (consume_ok_inv h1).2.2
        have e2 := ih.letLoopP h2
        have e3 := ih.exprsP h3
        omega

/-- Progress step for `lambda`. -/
theorem lambdaRule_progress_step (tokens : List Token) (f : Nat)
    (ih : ProgressAt tokens f) {c : Nat} {r : Expr} {c' : Nat}
    (h : Parser.lambdaRule tokens (f + 1) c = .ok (r, c')) : c < c' := by
  simp only [Parser.lambdaRule] at h
  cases h1 : Parser.consume tokens .leftBracket (c + 1) with
  | error e => rw [h1] at h; cases h
  | ok tc =>
    obtain ⟨t1, c2⟩ := tc
    rw [h1] at h
    simp only [] at h
    cases h2 : Parser.lambdaParams tokens f c2 with
    | error e => rw [h2] at h; cases h
    | ok psc =>
      obtain ⟨ps2, c3⟩ := psc
      rw [h2] at h
      simp only [] at h
      cases h3 : Parser.exprsUntilRB tokens f c3 with
      | error e => rw [h3] at h; cases h
      | ok bodyc =>
        obtain ⟨body, c4⟩ := bodyc
        rw [h3] at h
        simp only [] at h
        cases h
        have e1 := (consume_ok_inv h1).2.2
        have e2 := ih.lambdaParamsP h2
        have e3 := ih.exprsP h3
        omega

/-- Progress step for `expression`. -/
theorem expression_progress_step (tokens : List Token) (f : Nat)
    (ih : ProgressAt tokens f) {c : Nat} {r : Expr} {c' : Nat}
    (h : Parser.expression tokens (f + 1) c = .ok (r, c')) : c < c' := by
  simp only [Parser.expression] at h
  cases hm : Parser.mtch tokens .leftBracket c with
  | error e => rw [hm] at h; cases h
  | ok bc =>
    obtain ⟨b, c1⟩ := bc
    cases b with
    | false =>
      rw [hm] at h
      simp only [] at h
      obtain ⟨e1, -⟩ := atom_ok_inv h
      omega
    | true =>
      rw [hm] at h
      simp only [] at h
      obtain ⟨e1, -⟩ := mtch_true_inv hm
      cases hm2 : Parser.mtch tokens .rightBracket c1 with
      | error e => rw [hm2] at h; cases h
      | ok bc2 =>
        obtain ⟨b2, c2⟩ := bc2
        cases b2 with
        | true =>
          rw [hm2] at h
          simp only [] at h
          cases h
          obtain ⟨e2, -⟩ := mtch_true_inv hm2
          omega
        | false =>
          rw [hm2] at h
          simp only [] at h
          cases hp : tokens[c1]? with
          | none => rw [peek_none hp] at h; cases h
          | some t =>
            rw [peek_some hp] at h
            simp only [] at h
            by_cases k1 : t.lexeme = "if"
            · rw [if_pos k1] at h
              have := ih.ifP h
              omega
            · rw [if_neg k1] at h
              by_cases k2 : t.lexeme = "define"
              · rw [if_pos k2] at h
                have := ih.defineP h
                omega
              · rw [if_neg k2] at h
                by_cases k3 : t.lexeme = "set!"
                · rw [if_pos k3] at h
                  have := ih.setP h
                  omega
                · rw [if_neg k3] at h
                  by_cases k4 : t.lexeme = "let"
                  · rw [if_pos k4] at h
                    have := ih.letP h
                    omega
                  · rw [if_neg k4] at h
                    by_cases k5 : t.lexeme = "lambda"
                    · rw [if_pos k5] at h
                      have := ih.lambdaP h
                      omega
                    · rw [if_neg k5] at h
                      have := ih.callP h
                      omega

/-- Every fuel value enjoys cursor progress. -/
theorem progressAt_all (tokens : List Token) : ∀ f, ProgressAt tokens f := by
  intro f
  induction f with
  | zero => exact progressAt_zero tokens
  | succ f ih =>
    exact ⟨expression_progress_step tokens f ih,
      call_progress_step tokens f ih,
      exprsUntilRB_progress_step tokens f ih,
      ifRule_progress_step tokens f ih,
      defineRule_progress_step tokens f ih,
      setRule_progress_step tokens f ih,
      letRule_progress_step tokens f ih,
      letBindingsLoop_progress_step tokens f ih,
      letBinding_progress_step tokens f ih,
      lambdaRule_progress_step tokens f ih,
      lambdaParams_progress_step tokens f ih⟩

/-- A successful indexed lookup implies the index is in bounds. -/
theorem idx_lt_of_getElem? {l : List Token} {i : Nat} {t : Token}
    (h : l[i]? = some t) : i < l.length := by
  by_contra hge
  rw [List.getElem?_eq_none (by omega)] at h
  cases h

/-- `expression` succeeds only with the entry cursor in bounds. -/
theorem expression_ok_lt {tokens : List Token} {f c : Nat} {r : Expr}
    {c' : Nat} (h : Parser.expression tokens f c = .ok (r, c')) :
    c < tokens.length := by
  cases f with
  | zero => exact absurd h (by simp [Parser.expression])
  | succ f =>
    simp only [Parser.expression] at h
    cases hm : Parser.mtch tokens .leftBracket c with
    | error e => rw [hm] at h; cases h
    | ok bc =>
      obtain ⟨b, c1⟩ := bc
      cases b with
      | true =>
        obtain ⟨-, t, hq, -⟩ := mtch_true_inv hm
        exact idx_lt_of_getElem? hq
      | false =>
        obtain ⟨-, t, hq, -⟩ := mtch_false_inv hm
        exact idx_lt_of_getElem? hq

/-- `letBinding` succeeds only with the entry cursor in bounds. -/
theorem letBinding_ok_lt {tokens : List Token} {f c : Nat} {b : Token × Expr}
    {c' : Nat} (h : Parser.letBinding tokens f c = .ok (b, c')) :
    c < tokens.length := by
  cases f with
  | zero => exact absurd h (by simp [Parser.letBinding])
  | succ f =>
    simp only [Parser.letBinding] at h
    cases h1 : Parser.consume tokens .leftBracket c with
    | error e => rw [h1] at h; cases h
    | ok tc =>
      obtain ⟨t1, c1⟩ := tc
      exact idx_lt_of_getElem? (consume_ok_inv h1).1

/-- Fuel sufficiency: the recursion depth of the parser is bounded by twice
the number of remaining tokens, so the stated fuel never runs out. -/
theorem noFuelOutAt_all (tokens : List Token) :
    ∀ m, NoFuelOutAt tokens m := by
  intro m
  induction m using Nat.strong_induction_on with
  | _ m IH =>
  have hexpr : ∀ {c f : Nat}, tokens.length - c ≤ m → 2 * m + 1 ≤ f →
      Parser.expression tokens f c ≠ .error .fuelOut := by
    intro c f hcm hf hcontra
    obtain ⟨f', rfl⟩ : ∃ f', f = f' + 1 := ⟨f - 1, by omega⟩
    simp only [Parser.expression] at hcontra
    cases hm : Parser.mtch tokens .leftBracket c with
    | error e =>
      rw [hm] at hcontra
      cases hcontra
      obtain ⟨he, -⟩ := mtch_error_inv hm
      cases he
    | ok bc =>
      obtain ⟨b, c1⟩ := bc
      cases b with
      | false =>
        rw [hm] at hcontra
        simp only [] at hcontra
        rcases atom_error_inv hcontra with ⟨he, -⟩ | ⟨ty, he⟩ <;> cases he
      | true =>
        rw [hm] at hcontra
        simp only [] at hcontra
        obtain ⟨rfl, t0, hq0, -⟩ := mtch_true_inv hm
        have hclen : c < tokens.length := idx_lt_of_getElem? hq0
        cases hm2 : Parser.mtch tokens .rightBracket (c + 1) with
        | error e =>
          rw [hm2] at hcontra
          cases hcontra
          obtain ⟨he, -⟩ := mtch_error_inv hm2
          cases he
        | ok bc2 =>
          obtain ⟨b2, c2⟩ := bc2
          cases b2 with
          | true =>
            rw [hm2] at hcontra
            simp only [] at hcontra
            cases hcontra
          | false =>
            rw [hm2] at hcontra
            simp only [] at hcontra
            cases hp : tokens[c + 1]? with
            | none => rw [peek_none hp] at hcontra; cases hcontra
            | some t =>
              rw [peek_some hp] at hcontra
              simp only [] at hcontra
              have IH' := IH (m - 1) (by omega)
              have hsub : tokens.length - (c + 1) ≤ m - 1 := by omega
              have hfsub : 2 * (m - 1) + 2 ≤ f' := by omega
              by_cases k1 : t.lexeme = "if"
              · rw [if_pos k1] at hcontra
                exact IH'.ifNF hsub hfsub hcontra
              · rw [if_neg k1] at hcontra
                by_cases k2 : t.lexeme = "define"
                · rw [if_pos k2] at hcontra
                  exact IH'.defineNF hsub hfsub hcontra
                · rw [if_neg k2] at hcontra
                  by_cases k3 : t.lexeme = "set!"
                  · rw [if_pos k3] at hcontra
                    exact IH'.setNF hsub hfsub hcontra
                  · rw [if_neg k3] at hcontra
                    by_cases k4 : t.lexeme = "let"
                    · rw [if_pos k4] at hcontra
                      exact IH'.letNF hsub hfsub hcontra
                    · rw [if_neg k4] at hcontra
                      by_cases k5 : t.lexeme = "lambda"
                      · rw [if_pos k5] at hcontra
                        exact IH'.lambdaNF hsub hfsub hcontra
                      · rw [if_neg k5] at hcontra
                        exact IH'.callNF hsub hfsub hcontra
  have hlb : ∀ {c f : Nat}, tokens.length - c ≤ m → 2 * m + 1 ≤ f →
      Parser.letBinding tokens f c ≠ .error .fuelOut := by
    intro c f hcm hf hcontra
    obtain ⟨f', rfl⟩ : ∃ f', f = f' + 1 := ⟨f - 1, by omega⟩
    simp only [Parser.letBinding] at hcontra
    cases h1 : Parser.consume tokens .leftBracket c with
    | error e =>
      rw [h1] at hcontra
      cases hcontra
      rcases consume_error_inv h1 with he | ⟨pt, he⟩ <;> cases he
    | ok tc =>
      obtain ⟨t1, c1⟩ := tc
      rw [h1] at hcontra
      simp only [] at hcontra
      obtain ⟨hq1, -, rfl⟩ := consume_ok_inv h1
      have hclen : c < tokens.length := idx_lt_of_getElem? hq1
      cases h2 : Parser.consume tokens .symbol (c + 1) with
      | error e =>
        rw [h2] at hcontra
        cases hcontra
        rcases consume_error_inv h2 with he | ⟨pt, he⟩ <;> cases he
      | ok tc2 =>
        obtain ⟨t2, c2⟩ := tc2
        rw [h2] at hcontra
        simp only [] at hcontra
        obtain ⟨-, -, rfl⟩ := consume_ok_inv h2
        cases h3 : Parser.expression tokens f' (c + 1 + 1) with
        | error e =>
          rw [h3] at hcontra
          cases hcontra
          have IH' := IH (m - 1) (by omega)
          exact IH'.expressionNF (by omega) (by omega) h3
        | ok vc =>
          obtain ⟨v, c3⟩ := vc
          rw [h3] at hcontra
          simp only [] at hcontra
          cases h4 : Parser.consume tokens .rightBracket c3 with
          | error e =>
            rw [h4] at hcontra
            cases hcontra
            rcases consume_error_inv h4 with he | ⟨pt, he⟩ <;> cases he
          | ok tc4 =>
            obtain ⟨t4, c4⟩ := tc4
            rw [h4] at hcontra
            simp only [] at hcontra
            cases hcontra
  have hexprs : ∀ {c f : Nat}, tokens.length - c ≤ m → 2 * m + 2 ≤ f →
      Parser.exprsUntilRB tokens f c ≠ .error .fuelOut := by
    intro c f hcm hf hcontra
    obtain ⟨f', rfl⟩ : ∃ f', f = f' + 1 := ⟨f - 1, by omega⟩
    simp only [Parser.exprsUntilRB] at hcontra
    cases hm : Parser.mtch tokens .rightBracket c with
    | error e =>
      rw [hm] at hcontra
      cases hcontra
      obtain ⟨he, -⟩ := mtch_error_inv hm
      cases he
    | ok bc =>
      obtain ⟨b, c1⟩ := bc
      cases b with
      | true =>
        rw [hm] at hcontra
        simp only [] at hcontra
        cases hcontra
      | false =>
        rw [hm] at hcontra
        simp only [] at hcontra
        cases h1 : Parser.expression tokens f' c with
        | error e =>
          rw [h1] at hcontra
          cases hcontra
          exact hexpr hcm (by omega) h1
        | ok xc =>
          obtain ⟨x, c2⟩ := xc
          rw [h1] at hcontra
          simp only [] at hcontra
          have hclen : c < tokens.length := expression_ok_lt h1
          have hprog : c < c2 := (progressAt_all tokens f').expressionP h1
          cases h2 : Parser.exprsUntilRB tokens f' c2 with
          | error e =>
            rw [h2] at hcontra
            cases hcontra
            have IH' := IH (m - 1) (by omega)
            exact IH'.exprsNF (by omega) (by omega) h2
          | ok rc =>
            obtain ⟨rest, c3⟩ := rc
            rw [h2] at hcontra
            simp only [] at hcontra
            cases hcontra
  have hletloop : ∀ {c f : Nat}, tokens.length - c ≤ m → 2 * m + 2 ≤ f →
      Parser.letBindingsLoop tokens f c ≠ .error .fuelOut := by
    intro c f hcm hf hcontra
    obtain ⟨f', rfl⟩ : ∃ f', f = f' + 1 := ⟨f - 1, by omega⟩
    simp only [Parser.letBindingsLoop] at hcontra
    cases hm : Parser.mtch tokens .rightBracket c with
    | error e =>
      rw [hm] at hcontra
      cases hcontra
      obtain ⟨he, -⟩ := mtch_error_inv hm
      cases he
    | ok bc =>
      obtain ⟨b, c1⟩ := bc
      cases b with
      | true =>
        rw [hm] at hcontra
        simp only [] at hcontra
        cases hcontra
      | false =>
        rw [hm] at hcontra
        simp only [] at hcontra
        cases h1 : Parser.letBinding tokens f' c with
        | error e =>
          rw [h1] at hcontra
          cases hcontra
          exact hlb hcm (by omega) h1
        | ok xc =>
          obtain ⟨x, c2⟩ := xc
          rw [h1] at hcontra
          simp only [] at hcontra
          have hclen : c < tokens.length := letBinding_ok_lt h1
          have hprog : c < c2 := (progressAt_all tokens f').letBindingP h1
          cases h2 : Parser.letBindingsLoop tokens f' c2 with
          | error e =>
            rw [h2] at hcontra
            cases hcontra
            have IH' := IH (m - 1) (by omega)
            exact IH'.letLoopNF (by omega) (by omega) h2
          | ok rc =>
            obtain ⟨rest, c3⟩ := rc
            rw [h2] at hcontra
            simp only [] at hcontra
            cases hcontra
  have hcall : ∀ {c f : Nat}, tokens.length - c ≤ m → 2 * m + 2 ≤ f →
      Parser.call tokens f c ≠ .error .fuelOut := by
    intro c f hcm hf hcontra
    obtain ⟨f', rfl⟩ : ∃ f', f = f' + 1 := ⟨f - 1, by omega⟩
    simp only [Parser.call] at hcontra
    cases h1 : Parser.expression tokens f' c with
    | error e =>
      rw [h1] at hcontra
      cases hcontra
      exact hexpr hcm (by omega) h1
    | ok cc =>
      obtain ⟨callee, c1⟩ := cc
      rw [h1] at hcontra
      simp only [] at hcontra
      have hclen : c < tokens.length := expression_ok_lt h1
      have hprog : c < c1 := (progressAt_all tokens f').expressionP h1
      cases h2 : Parser.exprsUntilRB tokens f' c1 with
      | error e =>
        rw [h2] at hcontra
        cases hcontra
        have IH' := IH (m - 1) (by omega)
        exact IH'.exprsNF (by omega) (by omega) h2
      | ok ac =>
        obtain ⟨args, c2⟩ := ac
        rw [h2] at hcontra
        simp only [] at hcontra
        cases hcontra
  have hif : ∀ {c f : Nat}, tokens.length - c ≤ m → 2 * m + 2 ≤ f →
      Parser.ifRule tokens f c ≠ .error .fuelOut := by
    intro c f hcm hf hcontra
    obtain ⟨f', rfl⟩ : ∃ f', f = f' + 1 := ⟨f - 1, by omega⟩
    simp only [Parser.ifRule] at hcontra
    cases h1 : Parser.expression tokens f' (c + 1) with
    | error e =>
      rw [h1] at hcontra
      cases hcontra
      exact hexpr (by omega) (by omega) h1
    | ok tc =>
      obtain ⟨test, c2⟩ := tc
      rw [h1] at hcontra
      simp only [] at hcontra
      have hprog1 : c + 1 < c2 := (progressAt_all tokens f').expressionP h1
      cases h2 : Parser.expression tokens f' c2 with
      | error e =>
        rw [h2] at hcontra
        cases hcontra
        exact hexpr (by omega) (by omega) h2
      | ok cc =>
        obtain ⟨conseq, c3⟩ := cc
        rw [h2] at hcontra
        simp only [] at hcontra
        have hprog2 : c2 < c3 := (progressAt_all tokens f').expressionP h2
        cases hm : Parser.mtch tokens .rightBracket c3 with
        | error e =>
          rw [hm] at hcontra
          cases hcontra
          obtain ⟨he, -⟩ := mtch_error_inv hm
          cases he
        | ok bc =>
          obtain ⟨b, c4⟩ := bc
          cases b with
          | true =>
            rw [hm] at hcontra
            simp only [] at hcontra
            cases h4 : Parser.consume tokens .rightBracket c4 with
            | error e =>
              rw [h4] at hcontra
              cases hcontra
              rcases consume_error_inv h4 with he | ⟨pt, he⟩ <;> cases he
            | ok tc4 =>
              obtain ⟨t4, c5⟩ := tc4
              rw [h4] at hcontra
              simp only [] at hcontra
              cases hcontra
          | false =>
            rw [hm] at hcontra
            simp only [] at hcontra
            cases h3 : Parser.expression tokens f' c3 with
            | error e =>
              rw [h3] at hcontra
              cases hcontra
              exact hexpr (by omega) (by omega) h3
            | ok ac =>
              obtain ⟨alt, c4'⟩ := ac
              rw [h3] at hcontra
              simp only [] at hcontra
              cases h4 : Parser.consume tokens .rightBracket c4' with
              | error e =>
                rw [h4] at hcontra
                cases hcontra
                rcases consume_error_inv h4 with he | ⟨pt, he⟩ <;> cases he
              | ok tc4 =>
                obtain ⟨t4, c5⟩ := tc4
                rw [h4] at hcontra
                simp only [] at hcontra
                cases hcontra
  have hdefine : ∀ {c f : Nat}, tokens.length - c ≤ m → 2 * m + 2 ≤ f →
      Parser.defineRule tokens f c ≠ .error .fuelOut := by
    intro c f hcm hf hcontra
    obtain ⟨f', rfl⟩ : ∃ f', f = f' + 1 := ⟨f - 1, by omega⟩
    simp only [Parser.defineRule] at hcontra
    cases h1 : Parser.consume tokens .symbol (c + 1) with
    | error e =>
      rw [h1] at hcontra
      cases hcontra
      rcases consume_error_inv h1 with he | ⟨pt, he⟩ <;> cases he
    | ok tc =>
      obtain ⟨t1, c2⟩ := tc
      rw [h1] at hcontra
      simp only [] at hcontra
      obtain ⟨-, -, rfl⟩ := consume_ok_inv h1
      cases h2 : Parser.expression tokens f' (c + 1 + 1) with
      | error e =>
        rw [h2] at hcontra
        cases hcontra
        exact hexpr (by omega) (by omega) h2
      | ok vc =>
        obtain ⟨v, c3⟩ := vc
        rw [h2] at hcontra
        simp only [] at hcontra
        cases h3 : Parser.consume tokens .rightBracket c3 with
        | error e =>
          rw [h3] at hcontra
          cases hcontra
          rcases consume_error_inv h3 with he | ⟨pt, he⟩ <;> cases he
        | ok tc3 =>
          obtain ⟨t3, c4⟩ := tc3
          rw [h3] at hcontra
          simp only [] at hcontra
          cases hcontra
  have hset : ∀ {c f : Nat}, tokens.length - c ≤ m → 2 * m + 2 ≤ f →
      Parser.setRule tokens f c ≠ .error .fuelOut := by
    intro c f hcm hf hcontra
    obtain ⟨f', rfl⟩ : ∃ f', f = f' + 1 := ⟨f - 1, by omega⟩
    simp only [Parser.setRule] at hcontra
    cases h1 : Parser.consume tokens .symbol (c + 1) with
    | error e =>
      rw [h1] at hcontra
      cases hcontra
      rcases consume_error_inv h1 with he | ⟨pt, he⟩ <;> cases he
    | ok tc =>
      obtain ⟨t1, c2⟩ := tc
      rw [h1] at hcontra
      simp only [] at hcontra
      obtain ⟨-, -, rfl⟩ := consume_ok_inv h1
      cases h2 : Parser.expression tokens f' (c + 1 + 1) with
      | error e =>
        rw [h2] at hcontra
        cases hcontra
        exact hexpr (by omega) (by omega) h2
      | ok vc =>
        obtain ⟨v, c3⟩ := vc
        rw [h2] at hcontra
        simp only [] at hcontra
        cases h3 : Parser.consume tokens .rightBracket c3 with
        | error e =>
          rw [h3] at hcontra
          cases hcontra
          rcases consume_error_inv h3 with he | ⟨pt, he⟩ <;> cases he
        | ok tc3 =>
          obtain ⟨t3, c4⟩ := tc3
          rw [h3] at hcontra
          simp only [] at hcontra
          cases hcontra
  have hlet : ∀ {c f : Nat}, tokens.length - c ≤ m → 2 * m + 2 ≤ f →
      Parser.letRule tokens f c ≠ .error .fuelOut := by
    intro c f hcm hf hcontra
    obtain ⟨f', rfl⟩ : ∃ f', f = f' + 1 := ⟨f - 1, by omega⟩
    simp only [Parser.letRule] at hcontra
    cases h1 : Parser.consume tokens .leftBracket (c + 1) with
    | error e =>
      rw [h1] at hcontra
      cases hcontra
      rcases consume_error_inv h1 with he | ⟨pt, he⟩ <;> cases he
    | ok tc =>
      obtain ⟨t1, c2⟩ := tc
      rw [h1] at hcontra
      simp only [] at hcontra
      obtain ⟨hq1, -, rfl⟩ := consume_ok_inv h1
      have hclen : c + 1 < tokens.length := idx_lt_of_getElem? hq1
      have IH' := IH (m - 1) (by omega)
      cases h2 : Parser.letBindingsLoop tokens f' (c + 1 + 1) with
      | error e =>
        rw [h2] at hcontra
        cases hcontra
        exact IH'.letLoopNF (by omega) (by omega) h2
      | ok bsc =>
        obtain ⟨bs2, c3⟩ := bsc
        rw [h2] at hcontra
        simp only [] at hcontra
        have hprog : c + 1 + 1 < c3 := (progressAt_all tokens f').letLoopP h2
        cases h3 : Parser.exprsUntilRB tokens f' c3 with
        | error e =>
          rw [h3] at hcontra
          cases hcontra
          exact IH'.exprsNF (by omega) (by omega) h3
        | ok bodyc =>
          obtain ⟨body, c4⟩ := bodyc
          rw [h3] at hcontra
          simp only [] at hcontra
          cases hcontra
  have hlambda : ∀ {c f : Nat}, tokens.length - c ≤ m → 2 * m + 2 ≤ f →
      Parser.lambdaRule tokens f c ≠ .error .fuelOut := by
    intro c f hcm hf hcontra
    obtain ⟨f', rfl⟩ : ∃ f', f = f' + 1 := ⟨f - 1, by omega⟩
    simp only [Parser.lambdaRule] at hcontra
    cases h1 : Parser.consume tokens .leftBracket (c + 1) with
    | error e =>
      rw [h1] at hcontra
      cases hcontra
      rcases consume_error_inv h1 with he | ⟨pt, he⟩ <;> cases he
    | ok tc =>
      obtain ⟨t1, c2⟩ := tc
      rw [h1] at hcontra
      simp only [] at hcontra
      obtain ⟨hq1, -, rfl⟩ := consume_ok_inv h1
      have hclen : c + 1 < tokens.length := idx_lt_of_getElem? hq1
      have IH' := IH (m - 1) (by omega)
      cases h2 : Parser.lambdaParams tokens f' (c + 1 + 1) with
      | error e =>
        rw [h2] at hcontra
        cases hcontra
        exact IH'.lambdaParamsNF (by omega) (by omega) h2
      | ok psc =>
        obtain ⟨ps2, c3⟩ := psc
        rw [h2] at hcontra
        simp only [] at hcontra
        have hprog : c + 1 + 1 < c3 := (progressAt_all tokens f').lambdaParamsP h2
        cases h3 : Parser.exprsUntilRB tokens f' c3 with
        | error e =>
          rw [h3] at hcontra
          cases hcontra
          exact IH'.exprsNF (by omega) (by omega) h3
        | ok bodyc =>
          obtain ⟨body, c4⟩ := bodyc
          rw [h3] at hcontra
          simp only [] at hcontra
          cases hcontra
  have hlambdaparams : ∀ {c f : Nat}, tokens.length - c ≤ m → 2 * m + 2 ≤ f →
      Parser.lambdaParams tokens f c ≠ .error .fuelOut := by
    intro c f hcm hf hcontra
    obtain ⟨f', rfl⟩ : ∃ f', f = f' + 1 := ⟨f - 1, by omega⟩
    simp only [Parser.lambdaParams] at hcontra
    cases hm : Parser.mtch tokens .rightBracket c with
    | error e =>
      rw [hm] at hcontra
      cases hcontra
      obtain ⟨he, -⟩ := mtch_error_inv hm
      cases he
    | ok bc =>
      obtain ⟨b, c1⟩ := bc
      cases b with
      | true =>
        rw [hm] at hcontra
        simp only [] at hcontra
        cases hcontra
      | false =>
        rw [hm] at hcontra
        simp only [] at hcontra
        cases h1 : Parser.consume tokens .symbol c with
        | error e =>
          rw [h1] at hcontra
          cases hcontra
          rcases consume_error_inv h1 with he | ⟨pt, he⟩ <;> cases he
        | ok tc =>
          obtain ⟨t0, c2⟩ := tc
          rw [h1] at hcontra
          simp only [] at hcontra
          obtain ⟨hq1, -, rfl⟩ := consume_ok_inv h1
          have hclen : c < tokens.length := idx_lt_of_getElem? hq1
          cases h2 : Parser.lambdaParams tokens f' (c + 1) with
          | error e =>
            rw [h2] at hcontra
            cases hcontra
            have IH' := IH (m - 1) (by omega)
            exact IH'.lambdaParamsNF (by omega) (by omega) h2
          | ok rc =>
            obtain ⟨rest, c3⟩ := rc
            rw [h2] at hcontra
            simp only [] at hcontra
            cases hcontra
  have hparse : ∀ {c f : Nat}, tokens.length - c ≤ m → 2 * m + 3 ≤ f →
      Parser.parseLoop tokens f c ≠ .error .fuelOut := by
    intro c f hcm hf hcontra
    obtain ⟨f', rfl⟩ : ∃ f', f = f' + 1 := ⟨f - 1, by omega⟩
    simp only [Parser.parseLoop] at hcontra
    cases hp : tokens[c]? with
    | none => rw [peek_none hp] at hcontra; cases hcontra
    | some t =>
      rw [peek_some hp] at hcontra
      simp only [] at hcontra
      have hclen : c < tokens.length := idx_lt_of_getElem? hp
      by_cases ke : t.type = .eof
      · rw [if_pos ke] at hcontra
        cases hcontra
      · rw [if_neg ke] at hcontra
        cases h1 : Parser.expression tokens f' c with
        | error e =>
          rw [h1] at hcontra
          cases hcontra
          exact hexpr hcm (by omega) h1
        | ok xc =>
          obtain ⟨x, c1⟩ := xc
          rw [h1] at hcontra
          simp only [] at hcontra
          have hprog : c < c1 := (progressAt_all tokens f').expressionP h1
          cases h2 : Parser.parseLoop tokens f' c1 with
          | error e =>
            rw [h2] at hcontra
            cases hcontra
            have IH' := IH (m - 1) (by omega)
            exact IH'.parseLoopNF (by omega) (by omega) h2
          | ok rc =>
            obtain ⟨rest, c3⟩ := rc
            rw [h2] at hcontra
            simp only [] at hcontra
            cases hcontra
  exact ⟨hexpr, hlb, hcall, hexprs, hif, hdefine, hset, hlet, hletloop,
    hlambda, hlambdaparams, hparse⟩

/-- A success whose cursor is in range is good. -/
theorem goodRes_ok {α : Type} {ts : List Token} {x : α} {c' : Nat}
    (h : c' ≤ ts.length) : GoodRes ts (.ok (x, c')) :=
  ⟨fun h' => Except.noConfusion h', fun _ _ hy => by cases hy; exact h⟩

/-- Any error other than the out-of-bounds marker is good. -/
theorem goodRes_error_of_ne {α : Type} {ts : List Token} {e : ParseError}
    (h : e ≠ .oob) : GoodRes (α := α) ts (.error e) :=
  ⟨fun h' => h (Except.error.inj h'), fun _ _ hy => Except.noConfusion hy⟩

/-- Every cursor position up to the end-of-input index is in bounds. -/
theorem inb {ts : List Token} {c : Nat} (hc : c ≤ ts.length) :
    ∃ t, (ts ++ [eofTok])[c]? = some t := by
  have hlt : c < (ts ++ [eofTok]).length := by simp; omega
  exact ⟨_, List.getElem?_eq_getElem hlt⟩

/-- Consuming a non-end-of-input token keeps the cursor at or before the
end-of-input index: the token at the end-of-input index is `eofTok`. -/
theorem cursor_step {ts : List Token} {c : Nat} {t : Token}
    (hc : c ≤ ts.length) (hq : (ts ++ [eofTok])[c]? = some t)
    (ht : t.type ≠ .eof) : c + 1 ≤ ts.length := by
  rcases Nat.lt_or_ge c ts.length with h | h
  · omega
  · have hce : c = ts.length := by omega
    subst hce
    have heq : (ts ++ [eofTok])[ts.length]? = some eofTok := by
      rw [List.getElem?_append_right (by omega)]
      simp
    rw [heq] at hq
    cases hq
    exact absurd rfl ht

/-- Advancing past a token with a nonempty lexeme (a recognized keyword)
keeps the cursor at or before the end-of-input index: `eofTok`'s lexeme is
empty. -/
theorem cursor_step_lexeme {ts : List Token} {c : Nat} {t : Token}
    (hc : c ≤ ts.length) (hq : (ts ++ [eofTok])[c]? = some t)
    (ht : t.lexeme ≠ "") : c + 1 ≤ ts.length := by
  rcases Nat.lt_or_ge c ts.length with h | h
  · omega
  · have hce : c = ts.length := by omega
    subst hce
    have heq : (ts ++ [eofTok])[ts.length]? = some eofTok := by
      rw [List.getElem?_append_right (by omega)]
      simp
    rw [heq] at hq
    cases hq
    exact absurd rfl ht

/-- `atom` on an end-of-input-terminated stream is good at every in-range
cursor. -/
theorem atom_goodRes (ts : List Token) {c : Nat} (hc : c ≤ ts.length) :
    GoodRes ts (Parser.atom (ts ++ [eofTok]) c) := by
  obtain ⟨t, hq⟩ := inb hc
  rcases atom_cases _ c t hq with ⟨ha, ht⟩ | ⟨ha, ht⟩ | ⟨ha, -⟩
  · rw [ha]
    exact goodRes_ok (cursor_step hc hq (by simp [ht]))
  · rw [ha]
    refine goodRes_ok (cursor_step hc hq ?_)
    rcases ht with h | h | h <;> simp [h]
  · rw [ha]
    exact goodRes_error_of_ne (fun h => ParseError.noConfusion h)

/-- `consume` of a non-end-of-input type on an end-of-input-terminated
stream is good at every in-range nonzero cursor. -/
theorem consume_goodRes (ts : List Token) (tt : TokenType) {c : Nat}
    (hc : c ≤ ts.length) (h0 : c ≠ 0) (hne : tt ≠ .eof) :
    GoodRes ts (Parser.consume (ts ++ [eofTok]) tt c) := by
  obtain ⟨t, hq⟩ := inb hc
  by_cases ht : t.type = tt
  · rw [consume_some_eq hq ht]
    exact goodRes_ok (cursor_step hc hq (by rw [ht]; exact hne))
  · have hcm1 : c - 1 ≤ ts.length := by omega
    obtain ⟨p, hp⟩ := inb hcm1
    rw [consume_some_ne hq ht h0 hp]
    exact goodRes_error_of_ne (fun h => ParseError.noConfusion h)

/-- With no fuel every function fails with the fuel marker, which is not
an out-of-bounds access. -/
theorem noOobAt_zero (ts : List Token) : NoOobAt ts 0 := by
  have hne : (ParseError.fuelOut ≠ ParseError.oob) :=
    fun h => ParseError.noConfusion h
  refine ⟨?_, ?_, ?_, ?_, ?_, ?_, ?_, ?_, ?_, ?_, ?_, ?_⟩
  · intro c h
    simp only [Parser.expression]
    exact goodRes_error_of_ne hne
  · intro c h
    simp only [Parser.call]
    exact goodRes_error_of_ne hne
  · intro c h
    simp only [Parser.exprsUntilRB]
    exact goodRes_error_of_ne hne
  · intro c h
    simp only [Parser.ifRule]
    exact goodRes_error_of_ne hne
  · intro c h
    simp only [Parser.defineRule]
    exact goodRes_error_of_ne hne
  · intro c h
    simp only [Parser.setRule]
    exact goodRes_error_of_ne hne
  · intro c h
    simp only [Parser.letRule]
    exact goodRes_error_of_ne hne
  · intro c h1 h2
    simp only [Parser.letBindingsLoop]
    exact goodRes_error_of_ne hne
  · intro c h1 h2
    simp only [Parser.letBinding]
    exact goodRes_error_of_ne hne
  · intro c h
    simp only [Parser.lambdaRule]
    exact goodRes_error_of_ne hne
  · intro c h1 h2
    simp only [Parser.lambdaParams]
    exact goodRes_error_of_ne hne
  · intro c h
    simp only [Parser.parseLoop]
    exact goodRes_error_of_ne hne

/-- No-out-of-bounds step for `expression`. -/
theorem expression_noOob_step (ts : List Token) (f : Nat)
    (ih : NoOobAt ts f) {c : Nat} (hc : c ≤ ts.length) :
    GoodRes ts (Parser.expression (ts ++ [eofTok]) (f + 1) c) := by
  simp only [Parser.expression]
  obtain ⟨t0, hq0⟩ := inb hc
  by_cases hlb0 : t0.type = .leftBracket
  · rw [mtch_some_eq hq0 hlb0]
    simp only []
    have hc1 : c + 1 ≤ ts.length := cursor_step hc hq0 (by simp [hlb0])
    obtain ⟨t1, hq1⟩ := inb hc1
    by_cases hrb1 : t1.type = .rightBracket
    · rw [mtch_some_eq hq1 hrb1]
      simp only []
      exact goodRes_ok (cursor_step hc1 hq1 (by simp [hrb1]))
    · rw [mtch_some_ne hq1 hrb1]
      simp only []
      rw [peek_some hq1]
      simp only []
      by_cases k1 : t1.lexeme = "if"
      · rw [if_pos k1]
        exact ih.ifO (cursor_step_lexeme hc1 hq1 (by simp [k1]))
      · rw [if_neg k1]
        by_cases k2 : t1.lexeme = "define"
        · rw [if_pos k2]
          exact ih.defineO (cursor_step_lexeme hc1 hq1 (by simp [k2]))
        · rw [if_neg k2]
          by_cases k3 : t1.lexeme = "set!"
          · rw [if_pos k3]
            exact ih.setO (cursor_step_lexeme hc1 hq1 (by simp [k3]))
          · rw [if_neg k3]
            by_cases k4 : t1.lexeme = "let"
            · rw [if_pos k4]
              exact ih.letO (cursor_step_lexeme hc1 hq1 (by simp [k4]))
            · rw [if_neg k4]
              by_cases k5 : t1.lexeme = "lambda"
              · rw [if_pos k5]
                exact ih.lambdaO (cursor_step_lexeme hc1 hq1 (by simp [k5]))
              · rw [if_neg k5]
                exact ih.callO hc1
  · rw [mtch_some_ne hq0 hlb0]
    simp only []
    exact atom_goodRes ts hc

/-- No-out-of-bounds step for `call`. -/
theorem call_noOob_step (ts : List Token) (f : Nat)
    (ih : NoOobAt ts f) {c : Nat} (hc : c ≤ ts.length) :
    GoodRes ts (Parser.call (ts ++ [eofTok]) (f + 1) c) := by
  simp only [Parser.call]
  cases h1 : Parser.expression (ts ++ [eofTok]) f c with
  | error e =>
    simp only []
    exact goodRes_error_of_ne (fun he => (ih.expressionO hc).1 (he ▸ h1))
  | ok cc =>
    obtain ⟨callee, c1⟩ := cc
    simp only []
    have hc1 : c1 ≤ ts.length := (ih.expressionO hc).2 _ _ h1
    cases h2 : Parser.exprsUntilRB (ts ++ [eofTok]) f c1 with
    | error e =>
      simp only []
      exact goodRes_error_of_ne (fun he => (ih.exprsO hc1).1 (he ▸ h2))
    | ok ac =>
      obtain ⟨args, c2⟩ := ac
      simp only []
      exact goodRes_ok ((ih.exprsO hc1).2 _ _ h2)

/-- No-out-of-bounds step for the shared expression-list loop. -/
theorem exprsUntilRB_noOob_step (ts : List Token) (f : Nat)
    (ih : NoOobAt ts f) {c : Nat} (hc : c ≤ ts.length) :
    GoodRes ts (Parser.exprsUntilRB (ts ++ [eofTok]) (f + 1) c) := by
  simp only [Parser.exprsUntilRB]
  obtain ⟨t0, hq0⟩ := inb hc
  by_cases hrb : t0.type = .rightBracket
  · rw [mtch_some_eq hq0 hrb]
    simp only []
    exact goodRes_ok (cursor_step hc hq0 (by simp [hrb]))
  · rw [mtch_some_ne hq0 hrb]
    simp only []
    cases h1 : Parser.expression (ts ++ [eofTok]) f c with
    | error e =>
      simp only []
      exact goodRes_error_of_ne (fun he => (ih.expressionO hc).1 (he ▸ h1))
    | ok xc =>
      obtain ⟨x, c1⟩ := xc
      simp only []
      have hc1 : c1 ≤ ts.length := (ih.expressionO hc).2 _ _ h1
      cases h2 : Parser.exprsUntilRB (ts ++ [eofTok]) f c1 with
      | error e =>
        simp only []
        exact goodRes_error_of_ne (fun he => (ih.exprsO hc1).1 (he ▸ h2))
      | ok rc =>
        obtain ⟨rest, c2⟩ := rc
        simp only []
        exact goodRes_ok ((ih.exprsO hc1).2 _ _ h2)

/-- No-out-of-bounds step for `if`. -/
theorem ifRule_noOob_step (ts : List Token) (f : Nat)
    (ih : NoOobAt ts f) {c : Nat} (hc : c + 1 ≤ ts.length) :
    GoodRes ts (Parser.ifRule (ts ++ [eofTok]) (f + 1) c) := by
  simp only [Parser.ifRule]
  cases h1 : Parser.expression (ts ++ [eofTok]) f (c + 1) with
  | error e =>
    simp only []
    exact goodRes_error_of_ne (fun he => (ih.expressionO hc).1 (he ▸ h1))
  | ok tc =>
    obtain ⟨test, c2⟩ := tc
    simp only []
    have hc2 : c2 ≤ ts.length := (ih.expressionO hc).2 _ _ h1
    cases h2 : Parser.expression (ts ++ [eofTok]) f c2 with
    | error e =>
      simp only []
      exact goodRes_error_of_ne (fun he => (ih.expressionO hc2).1 (he ▸ h2))
    | ok cc =>
      obtain ⟨conseq, c3⟩ := cc
      simp only []
      have hc3 : c3 ≤ ts.length := (ih.expressionO hc2).2 _ _ h2
      obtain ⟨t3, hq3⟩ := inb hc3
      by_cases hrb : t3.type = .rightBracket
      · rw [mtch_some_eq hq3 hrb]
        simp only []
        have hc4 : c3 + 1 ≤ ts.length := cursor_step hc3 hq3 (by simp [hrb])
        have hg := consume_goodRes ts .rightBracket hc4 (by omega) (by simp)
        cases h4 : Parser.consume (ts ++ [eofTok]) .rightBracket (c3 + 1) with
        | error e =>
          simp only []
          exact goodRes_error_of_ne (fun he => hg.1 (he ▸ h4))
        | ok tc4 =>
          obtain ⟨t4, c5⟩ := tc4
          simp only []
          exact goodRes_ok (hg.2 _ _ h4)
      · rw [mtch_some_ne hq3 hrb]
        simp only []
        cases h3 : Parser.expression (ts ++ [eofTok]) f c3 with
        | error e =>
          simp only []
          exact goodRes_error_of_ne (fun he => (ih.expressionO hc3).1 (he ▸ h3))
        | ok ac =>
          obtain ⟨alt, c4⟩ := ac
          simp only []
          have hc4 : c4 ≤ ts.length := (ih.expressionO hc3).2 _ _ h3
          have hne0 : c4 ≠ 0 := by
            have := (progressAt_all (ts ++ [eofTok]) f).expressionP h3
            omega
          have hg := consume_goodRes ts .rightBracket hc4 hne0 (by simp)
          cases h4 : Parser.consume (ts ++ [eofTok]) .rightBracket c4 with
          | error e =>
            simp only []
            exact goodRes_error_of_ne (fun he => hg.1 (he ▸ h4))
          | ok tc4 =>
            obtain ⟨t4, c5⟩ := tc4
            simp only []
            exact goodRes_ok (hg.2 _ _ h4)

/-- No-out-of-bounds step for `define`. -/
theorem defineRule_noOob_step (ts : List Token) (f : Nat)
    (ih : NoOobAt ts f) {c : Nat} (hc : c + 1 ≤ ts.length) :
    GoodRes ts (Parser.defineRule (ts ++ [eofTok]) (f + 1) c) := by
  simp only [Parser.defineRule]
  have hg1 := consume_goodRes ts .symbol hc (by omega) (by simp)
  cases h1 : Parser.consume (ts ++ [eofTok]) .symbol (c + 1) with
  | error e =>
    simp only []
    exact goodRes_error_of_ne (fun he => hg1.1 (he ▸ h1))
  | ok tc =>
    obtain ⟨t1, c2⟩ := tc
    simp only []
    have hc2 : c2 ≤ ts.length := hg1.2 _ _ h1
    cases h2 : Parser.expression (ts ++ [eofTok]) f c2 with
    | error e =>
      simp only []
      exact goodRes_error_of_ne (fun he => (ih.expressionO hc2).1 (he ▸ h2))
    | ok vc =>
      obtain ⟨v, c3⟩ := vc
      simp only []
      have hc3 : c3 ≤ ts.length := (ih.expressionO hc2).2 _ _ h2
      have hne0 : c3 ≠ 0 := by
        have := (progressAt_all (ts ++ [eofTok]) f).expressionP h2
        omega
      have hg3 := consume_goodRes ts .rightBracket hc3 hne0 (by simp)
      cases h3 : Parser.consume (ts ++ [eofTok]) .rightBracket c3 with
      | error e =>
        simp only []
        exact goodRes_error_of_ne (fun he => hg3.1 (he ▸ h3))
      | ok tc3 =>
        obtain ⟨t3, c4⟩ := tc3
        simp only []
        exact goodRes_ok (hg3.2 _ _ h3)

/-- No-out-of-bounds step for `set!`. -/
theorem setRule_noOob_step (ts : List Token) (f : Nat)
    (ih : NoOobAt ts f) {c : Nat} (hc : c + 1 ≤ ts.length) :
    GoodRes ts (Parser.setRule (ts ++ [eofTok]) (f + 1) c) := by
  simp only [Parser.setRule]
  have hg1 := consume_goodRes ts .symbol hc (by omega) (by simp)
  cases h1 : Parser.consume (ts ++ [eofTok]) .symbol (c + 1) with
  | error e =>
    simp only []
    exact goodRes_error_of_ne (fun he => hg1.1 (he ▸ h1))
  | ok tc =>
    obtain ⟨t1, c2⟩ := tc
    simp only []
    have hc2 : c2 ≤ ts.length := hg1.2 _ _ h1
    cases h2 : Parser.expression (ts ++ [eofTok]) f c2 with
    | error e =>
      simp only []
      exact goodRes_error_of_ne (fun he => (ih.expressionO hc2).1 (he ▸ h2))
    | ok vc =>
      obtain ⟨v, c3⟩ := vc
      simp only []
      have hc3 : c3 ≤ ts.length := (ih.expressionO hc2).2 _ _ h2
      have hne0 : c3 ≠ 0 := by
        have := (progressAt_all (ts ++ [eofTok]) f).expressionP h2
        omega
      have hg3 := consume_goodRes ts .rightBracket hc3 hne0 (by simp)
      cases h3 : Parser.consume (ts ++ [eofTok]) .rightBracket c3 with
      | error e =>
        simp only []
        exact goodRes_error_of_ne (fun he => hg3.1 (he ▸ h3))
      | ok tc3 =>
        obtain ⟨t3, c4⟩ := tc3
        simp only []
        exact goodRes_ok (hg3.2 _ _ h3)

/-- No-out-of-bounds step for `let`. -/
theorem letRule_noOob_step (ts : List Token) (f : Nat)
    (ih : NoOobAt ts f) {c : Nat} (hc : c + 1 ≤ ts.length) :
    GoodRes ts (Parser.letRule (ts ++ [eofTok]) (f + 1) c) := by
  simp only [Parser.letRule]
  have hg1 := consume_goodRes ts .leftBracket hc (by omega) (by simp)
  cases h1 : Parser.consume (ts ++ [eofTok]) .leftBracket (c + 1) with
  | error e =>
    simp only []
    exact goodRes_error_of_ne (fun he => hg1.1 (he ▸ h1))
  | ok tc =>
    obtain ⟨t1, c2⟩ := tc
    simp only []
    have hc2 : c2 ≤ ts.length := hg1.2 _ _ h1
    have h02 : 1 ≤ c2 := by
      obtain ⟨-, -, rfl⟩ := consume_ok_inv h1
      omega
    cases h2 : Parser.letBindingsLoop (ts ++ [eofTok]) f c2 with
    | error e =>
      simp only []
      exact goodRes_error_of_ne (fun he => (ih.letLoopO h02 hc2).1 (he ▸ h2))
    | ok bsc =>
      obtain ⟨bs2, c3⟩ := bsc
      simp only []
      have hc3 : c3 ≤ ts.length := (ih.letLoopO h02 hc2).2 _ _ h2
      cases h3 : Parser.exprsUntilRB (ts ++ [eofTok]) f c3 with
      | error e =>
        simp only []
        exact goodRes_error_of_ne (fun he => (ih.exprsO hc3).1 (he ▸ h3))
      | ok bodyc =>
        obtain ⟨body, c4⟩ := bodyc
        simp only []
        exact goodRes_ok ((ih.exprsO hc3).2 _ _ h3)

/-- No-out-of-bounds step for the `let` binding loop. -/
theorem letBindingsLoop_noOob_step (ts : List Token) (f : Nat)
    (ih : NoOobAt ts f) {c : Nat} (h0 : 1 ≤ c) (hc : c ≤ ts.length) :
    GoodRes ts (Parser.letBindingsLoop (ts ++ [eofTok]) (f + 1) c) := by
  simp only [Parser.letBindingsLoop]
  obtain ⟨t0, hq0⟩ := inb hc
  by_cases hrb : t0.type = .rightBracket
  · rw [mtch_some_eq hq0 hrb]
    simp only []
    exact goodRes_ok (cursor_step hc hq0 (by simp [hrb]))
  · rw [mtch_some_ne hq0 hrb]
    simp only []
    cases h1 : Parser.letBinding (ts ++ [eofTok]) f c with
    | error e =>
      simp only []
      exact goodRes_error_of_ne (fun he => (ih.letBindingO h0 hc).1 (he ▸ h1))
    | ok bc =>
      obtain ⟨b, c2⟩ := bc
      simp only []
      have hc2 : c2 ≤ ts.length := (ih.letBindingO h0 hc).2 _ _ h1
      have h02 : 1 ≤ c2 := by
        have := (progressAt_all (ts ++ [eofTok]) f).letBindingP h1
        omega
      cases h2 : Parser.letBindingsLoop (ts ++ [eofTok]) f c2 with
      | error e =>
        simp only []
        exact goodRes_error_of_ne (fun he => (ih.letLoopO h02 hc2).1 (he ▸ h2))
      | ok rc =>
        obtain ⟨rest, c3⟩ := rc
        simp only []
        exact goodRes_ok ((ih.letLoopO h02 hc2).2 _ _ h2)

/-- No-out-of-bounds step for `letBinding`. -/
theorem letBinding_noOob_step (ts : List Token) (f : Nat)
    (ih : NoOobAt ts f) {c : Nat} (h0 : 1 ≤ c) (hc : c ≤ ts.length) :
    GoodRes ts (Parser.letBinding (ts ++ [eofTok]) (f + 1) c) := by
  simp only [Parser.letBinding]
  have hg1 := consume_goodRes ts .leftBracket hc (by omega) (by simp)
  cases h1 : Parser.consume (ts ++ [eofTok]) .leftBracket c with
  | error e =>
    simp only []
    exact goodRes_error_of_ne (fun he => hg1.1 (he ▸ h1))
  | ok tc =>
    obtain ⟨t1, c1⟩ := tc
    simp only []
    have hc1 : c1 ≤ ts.length := hg1.2 _ _ h1
    have h01 : c1 ≠ 0 := by
      obtain ⟨-, -, rfl⟩ := consume_ok_inv h1
      omega
    have hg2 := consume_goodRes ts .symbol hc1 h01 (by simp)
    cases h2 : Parser.consume (ts ++ [eofTok]) .symbol c1 with
    | error e =>
      simp only []
      exact goodRes_error_of_ne (fun he => hg2.1 (he ▸ h2))
    | ok tc2 =>
      obtain ⟨t2, c2⟩ := tc2
      simp only []
      have hc2 : c2 ≤ ts.length := hg2.2 _ _ h2
      cases h3 : Parser.expression (ts ++ [eofTok]) f c2 with
      | error e =>
        simp only []
        exact goodRes_error_of_ne (fun he => (ih.expressionO hc2).1 (he ▸ h3))
      | ok vc =>
        obtain ⟨v, c3⟩ := vc
        simp only []
        have hc3 : c3 ≤ ts.length := (ih.expressionO hc2).2 _ _ h3
        have hne0 : c3 ≠ 0 := by
          have := (progressAt_all (ts ++ [eofTok]) f).expressionP h3
          omega
        have hg4 := consume_goodRes ts .rightBracket hc3 hne0 (by simp)
        cases h4 : Parser.consume (ts ++ [eofTok]) .rightBracket c3 with
        | error e =>
          simp only []
          exact goodRes_error_of_ne (fun he => hg4.1 (he ▸ h4))
        | ok tc4 =>
          obtain ⟨t4, c4⟩ := tc4
          simp only []
          exact goodRes_ok (hg4.2 _ _ h4)

/-- No-out-of-bounds step for `lambda`. -/
theorem lambdaRule_noOob_step (ts : List Token) (f : Nat)
    (ih : NoOobAt ts f) {c : Nat} (hc : c + 1 ≤ ts.length) :
    GoodRes ts (Parser.lambdaRule (ts ++ [eofTok]) (f + 1) c) := by
  simp only [Parser.lambdaRule]
  have hg1 := consume_goodRes ts .leftBracket hc (by omega) (by simp)
  cases h1 : Parser.consume (ts ++ [eofTok]) .leftBracket (c + 1) with
  | error e =>
    simp only []
    exact goodRes_error_of_ne (fun he => hg1.1 (he ▸ h1))
  | ok tc =>
    obtain ⟨t1, c2⟩ := tc
    simp only []
    have hc2 : c2 ≤ ts.length := hg1.2 _ _ h1
    have h02 : 1 ≤ c2 := by
      obtain ⟨-, -, rfl⟩ := consume_ok_inv h1
      omega
    cases h2 : Parser.lambdaParams (ts ++ [eofTok]) f c2 with
    | error e =>
      simp only []
      exact goodRes_error_of_ne
        (fun he => (ih.lambdaParamsO h02 hc2).1 (he ▸ h2))
    | ok psc =>
      obtain ⟨ps2, c3⟩ := psc
      simp only []
      have hc3 : c3 ≤ ts.length := (ih.lambdaParamsO h02 hc2).2 _ _ h2
      cases h3 : Parser.exprsUntilRB (ts ++ [eofTok]) f c3 with
      | error e =>
        simp only []
        exact goodRes_error_of_ne (fun he => (ih.exprsO hc3).1 (he ▸ h3))
      | ok bodyc =>
        obtain ⟨body, c4⟩ := bodyc
        simp only []
        exact goodRes_ok ((ih.exprsO hc3).2 _ _ h3)

/-- No-out-of-bounds step for the `lambda` parameter loop. -/
theorem lambdaParams_noOob_step (ts : List Token) (f : Nat)
    (ih : NoOobAt ts f) {c : Nat} (h0 : 1 ≤ c) (hc : c ≤ ts.length) :
    GoodRes ts (Parser.lambdaParams (ts ++ [eofTok]) (f + 1) c) := by
  simp only [Parser.lambdaParams]
  obtain ⟨t0, hq0⟩ := inb hc
  by_cases hrb : t0.type = .rightBracket
  · rw [mtch_some_eq hq0 hrb]
    simp only []
    exact goodRes_ok (cursor_step hc hq0 (by simp [hrb]))
  · rw [mtch_some_ne hq0 hrb]
    simp only []
    have hg1 := consume_goodRes ts .symbol hc (by omega) (by simp)
    cases h1 : Parser.consume (ts ++ [eofTok]) .symbol c with
    | error e =>
      simp only []
      exact goodRes_error_of_ne (fun he => hg1.1 (he ▸ h1))
    | ok tc =>
      obtain ⟨t1, c1⟩ := tc
      simp only []
      have hc1 : c1 ≤ ts.length := hg1.2 _ _ h1
      have h01 : 1 ≤ c1 := by
        obtain ⟨-, -, rfl⟩ := consume_ok_inv h1
        omega
      cases h2 : Parser.lambdaParams (ts ++ [eofTok]) f c1 with
      | error e =>
        simp only []
        exact goodRes_error_of_ne
          (fun he => (ih.lambdaParamsO h01 hc1).1 (he ▸ h2))
      | ok rc =>
        obtain ⟨rest, c2⟩ := rc
        simp only []
        exact goodRes_ok ((ih.lambdaParamsO h01 hc1).2 _ _ h2)

/-- No-out-of-bounds step for the top-level loop. -/
theorem parseLoop_noOob_step (ts : List Token) (f : Nat)
    (ih : NoOobAt ts f) {c : Nat} (hc : c ≤ ts.length) :
    GoodRes ts (Parser.parseLoop (ts ++ [eofTok]) (f + 1) c) := by
  simp only [Parser.parseLoop]
  obtain ⟨t, hq⟩ := inb hc
  rw [peek_some hq]
  simp only []
  by_cases ke : t.type = .eof
  · rw [if_pos ke]
    exact goodRes_ok hc
  · rw [if_neg ke]
    cases h1 : Parser.expression (ts ++ [eofTok]) f c with
    | error e =>
      simp only []
      exact goodRes_error_of_ne (fun he => (ih.expressionO hc).1 (he ▸ h1))
    | ok xc =>
      obtain ⟨x, c1⟩ := xc
      simp only []
      have hc1 : c1 ≤ ts.length := (ih.expressionO hc).2 _ _ h1
      cases h2 : Parser.parseLoop (ts ++ [eofTok]) f c1 with
      | error e =>
        simp only []
        exact goodRes_error_of_ne (fun he => (ih.parseLoopO hc1).1 (he ▸ h2))
      | ok rc =>
        obtain ⟨rest, c2⟩ := rc
        simp only []
        exact goodRes_ok ((ih.parseLoopO hc1).2 _ _ h2)

/-- Every fuel value is free of out-of-bounds accesses on an
end-of-input-terminated stream. -/
theorem noOobAt_all (ts : List Token) : ∀ f, NoOobAt ts f := by
  intro f
  induction f with
  | zero => exact noOobAt_zero ts
  | succ f ih =>
    exact ⟨expression_noOob_step ts f ih,
      call_noOob_step ts f ih,
      exprsUntilRB_noOob_step ts f ih,
      ifRule_noOob_step ts f ih,
      defineRule_noOob_step ts f ih,
      setRule_noOob_step ts f ih,
      letRule_noOob_step ts f ih,
      letBindingsLoop_noOob_step ts f ih,
      letBinding_noOob_step ts f ih,
      lambdaRule_noOob_step ts f ih,
      lambdaParams_noOob_step ts f ih,
      parseLoop_noOob_step ts f ih⟩

/-- A successful top-level loop stops looking at an end-of-input token. -/
theorem parseLoop_ok_eof {tokens : List Token} :
    ∀ {f c : Nat} {xs : List Expr} {c' : Nat},
      Parser.parseLoop tokens f c = .ok (xs, c') →
      ∃ t, tokens[c']? = some t ∧ t.type = .eof := by
  intro f
  induction f with
  | zero =>
    intro c xs c' h
    exact absurd h (by simp [Parser.parseLoop])
  | succ f ih =>
    intro c xs c' h
    simp only [Parser.parseLoop] at h
    cases hq : tokens[c]? with
    | none => rw [peek_none hq] at h; cases h
    | some t =>
      rw [peek_some hq] at h
      simp only [] at h
      by_cases ke : t.type = .eof
      · rw [if_pos ke] at h
        cases h
        exact ⟨t, hq, ke⟩
      · rw [if_neg ke] at h
        cases h1 : Parser.expression tokens f c with
        | error e => rw [h1] at h; cases h
        | ok xc =>
          obtain ⟨x, c1⟩ := xc
          rw [h1] at h
          simp only [] at h
          cases h2 : Parser.parseLoop tokens f c1 with
          | error e => rw [h2] at h; cases h
          | ok rc =>
            obtain ⟨rest, c2⟩ := rc
            rw [h2] at h
            simp only [] at h
            cases h
            exact ih h2

/-- C8: for every finite token sequence terminated by the end-of-input
token, `parse` terminates: the supplied fuel never runs out, and the run
either returns a result list with the top-level loop stopped exactly at
the end-of-input index (the whole input consumed), or fails with one of
the two `SyntaxError` shapes; moreover every successful `expression` parse
strictly advances the cursor, so no input can make the parser loop
forever. -/
theorem c8_parse_terminates (tokens : List Token) (h : EofTerminated tokens) :
    ((∃ es, Parser.parse tokens = .ok es ∧
        Parser.parseLoop tokens (2 * tokens.length + 3) 0
          = .ok (es, tokens.length - 1)) ∨
      (∃ e, Parser.parse tokens = .error e ∧ e.isSyntaxE)) ∧
    (∀ (f c : Nat) (r : Expr) (c' : Nat),
      Parser.expression tokens f c = .ok (r, c') → c < c') := by
  obtain ⟨ts, rfl, hmid⟩ := h
  constructor
  · cases hp : Parser.parseLoop (ts ++ [eofTok])
        (2 * (ts ++ [eofTok]).length + 3) 0 with
    | error e =>
      refine .inr ⟨e, ?_, ?_⟩
      · simp only [Parser.parse]
        rw [hp]
      · cases e with
        | unexpectedConsume a b => exact trivial
        | unexpectedAtom a => exact trivial
        | oob =>
          exact absurd hp
            ((noOobAt_all ts (2 * (ts ++ [eofTok]).length + 3)).parseLoopO
              (by omega)).1
        | fuelOut =>
          exact absurd hp
            ((noFuelOutAt_all (ts ++ [eofTok])
              (ts ++ [eofTok]).length).parseLoopNF (by omega) (by omega))
    | ok rc =>
      obtain ⟨es, c'⟩ := rc
      refine .inl ⟨es, ?_, ?_⟩
      · simp only [Parser.parse]
        rw [hp]
      · obtain ⟨t, hq, hte⟩ := parseLoop_ok_eof hp
        have hle : c' ≤ ts.length :=
          ((noOobAt_all ts (2 * (ts ++ [eofTok]).length + 3)).parseLoopO
            (by omega)).2 _ _ hp
        have hce : c' = ts.length := by
          rcases Nat.lt_or_ge c' ts.length with hlt | hge
          · rw [List.getElem?_append, if_pos hlt] at hq
            have hmem : t ∈ ts := List.getElem?_mem hq
            exact absurd hte (hmid t hmem)
          · omega
        have hlen : (ts ++ [eofTok]).length - 1 = ts.length := by simp
        rw [hlen, ← hce]
  · intro f c r c' hex
    exact (progressAt_all (ts ++ [eofTok]) f).expressionP hex

/-- Closed instance of `c8_parse_terminates`: the empty input (just the
end-of-input token) terminates, with the success branch realized. -/
theorem c8_parse_terminates_witness :
    EofTerminated [eofTok] ∧
    (((∃ es, Parser.parse [eofTok] = .ok es ∧
        Parser.parseLoop [eofTok] (2 * [eofTok].length + 3) 0
          = .ok (es, [eofTok].length - 1)) ∨
      (∃ e, Parser.parse [eofTok] = .error e ∧ e.isSyntaxE)) ∧
    (∀ (f c : Nat) (r : Expr) (c' : Nat),
      Parser.expression [eofTok] f c = .ok (r, c') → c < c')) :=
  ⟨⟨[], rfl, by simp⟩, c8_parse_terminates [eofTok] ⟨[], rfl, by simp⟩⟩

/-- C9: on an end-of-input-terminated token stream the cursor never runs
past the end-of-input token, so no token access is out of bounds and the
embedding's fuel never runs out: every failure of `parse` is one of the
two thrown `SyntaxError` shapes. -/
theorem c9_failures_are_syntax_errors (tokens : List Token)
    (h : EofTerminated tokens) (e : ParseError)
    (hp : Parser.parse tokens = .error e) :
    (∃ pt et, e = .unexpectedConsume pt et) ∨ ∃ ty, e = .unexpectedAtom ty := by
  obtain ⟨ts, rfl, hmid⟩ := h
  have hpl : Parser.parseLoop (ts ++ [eofTok])
      (2 * (ts ++ [eofTok]).length + 3) 0 = .error e := by
    simp only [Parser.parse] at hp
    cases hq : Parser.parseLoop (ts ++ [eofTok])
        (2 * (ts ++ [eofTok]).length + 3) 0 with
    | error e' =>
      rw [hq] at hp
      simp only [] at hp
      rw [← Except.error.inj hp]
    | ok rc =>
      obtain ⟨xs, c'⟩ := rc
      rw [hq] at hp
      simp only [] at hp
      cases hp
  cases e with
  | unexpectedConsume a b => exact .inl ⟨a, b, rfl⟩
  | unexpectedAtom a => exact .inr ⟨a, rfl⟩
  | oob =>
    exact absurd hpl
      ((noOobAt_all ts (2 * (ts ++ [eofTok]).length + 3)).parseLoopO
        (by omega)).1
  | fuelOut =>
    exact absurd hpl
      ((noFuelOutAt_all (ts ++ [eofTok])
        (ts ++ [eofTok]).length).parseLoopNF (by omega) (by omega))

/-- Closed instance of `c9_failures_are_syntax_errors`: the failure on a
bare right bracket is the atom-rule `SyntaxError`. -/
theorem c9_failures_are_syntax_errors_witness :
    Parser.parse [rparenTok, eofTok]
      = .error (.unexpectedAtom .rightBracket) ∧
    ((∃ pt et, (ParseError.unexpectedAtom .rightBracket)
        = .unexpectedConsume pt et) ∨
      ∃ ty, (ParseError.unexpectedAtom .rightBracket)
        = .unexpectedAtom ty) :=
  ⟨rfl, c9_failures_are_syntax_errors [rparenTok, eofTok]
    ⟨[rparenTok], rfl, by decide⟩ (.unexpectedAtom .rightBracket) rfl⟩
